import Mathlib

/-!
Verification of the HEAL-scheduling stacking core (src/problems/HEAL-scheduling/p2.py).

The Python code is shallowly embedded: Python floats become rationals (all the
arithmetic performed by the program on the inputs we evaluate is exact), Python
lists become Lean lists with Python indexing semantics (negative indices wrap),
Python dicts become association lists, and code that can raise returns
`Except Err`.  The success path of `StackingState.apply_relocation` has no
`return` statement, so it returns `None`; the embedding keeps that value as
`Option Bool` (`none` for Python `None`, `some b` for a returned boolean),
because the truthiness of that value is what `try_apply_move` branches on.
-/

namespace P2Spec

/- Batteries seals the rational-number operations; re-open them locally so
that concrete program runs reduce inside `decide`. -/
attribute [local semireducible] Rat.add Rat.mul Rat.sub Rat.inv Rat.ofScientific


/-- Error kinds raised by the Python code: IndexError from list indexing,
KeyError from dict.pop, the three ValueError messages of apply_relocation
(empty source stack, index out of bounds, max height exceeded), ValueError
from min()/list.remove on missing data, and a fuel marker for the repair
while-loop (the Python loop terminates because every iteration delivers one
block; the fuel we pass is the number of blocks left, so the marker is never
produced on the runs evaluated here). -/
inductive Err where
  | indexError
  | keyError
  | valueEmpty
  | valueRange
  | valueOverflow
  | valueOther
  | loopLimit
  deriving DecidableEq

instance {α : Type} [DecidableEq α] : DecidableEq (Except Err α) := fun a b =>
  match a, b with
  | .ok x, .ok y =>
    if h : x = y then .isTrue (by rw [h]) else .isFalse (fun hc => by cases hc; exact h rfl)
  | .error e1, .error e2 =>
    if h : e1 = e2 then .isTrue (by rw [h]) else .isFalse (fun hc => by cases hc; exact h rfl)
  | .ok _, .error _ => .isFalse (fun hc => by cases hc)
  | .error _, .ok _ => .isFalse (fun hc => by cases hc)

/-- Python list indexing: a non-negative index addresses from the front,
a negative index wraps by adding the length, anything else is an IndexError
(modelled as `none`). -/
def pyIdx (n : ℕ) (i : ℤ) : Option ℕ :=
  if 0 ≤ i ∧ i < (n : ℤ) then some i.toNat
  else if -(n : ℤ) ≤ i ∧ i < 0 then some (i + n).toNat
  else none

/-- Python `l[i]` for an integer index. -/
def pyGet {α : Type} (l : List α) (i : ℤ) : Except Err α :=
  match pyIdx l.length i with
  | some k =>
    match l.get? k with
    | some a => .ok a
    | none => .error .indexError
  | none => .error .indexError

/-- Python `l[i]` for an index that is already a natural number. -/
def pyGetNat {α : Type} (l : List α) (i : ℕ) : Except Err α :=
  match l.get? i with
  | some a => .ok a
  | none => .error .indexError

/-- Python `d[k]` lookup in a dict embedded as an association list. -/
def dget {α : Type} (d : List (ℕ × α)) (k : ℕ) : Option α :=
  (d.find? (fun e => e.1 == k)).map (fun e => e.2)

/-- Python `d[k] = v`: replace the entry in place if the key is present,
append it otherwise (dicts preserve insertion order). -/
def dset {α : Type} (d : List (ℕ × α)) (k : ℕ) (v : α) : List (ℕ × α) :=
  if (d.find? (fun e => e.1 == k)).isSome then
    d.map (fun e => if e.1 == k then (k, v) else e)
  else d ++ [(k, v)]

/-- Python `d.pop(k)`: KeyError when the key is absent. -/
def dpop {α : Type} (d : List (ℕ × α)) (k : ℕ) : Except Err (List (ℕ × α)) :=
  if (d.find? (fun e => e.1 == k)).isSome then
    .ok (d.filter (fun e => !(e.1 == k)))
  else .error .keyError

/-- SortedSet.remove of an exact (block, due) pair: ValueError/KeyError when
the element is absent. -/
def sremove (l : List (ℕ × ℚ)) (x : ℕ × ℚ) : Except Err (List (ℕ × ℚ)) :=
  if x ∈ l then .ok (l.erase x) else .error .valueOther

/-- Python `min` over a non-empty list of values (the call sites guard the
empty case themselves). -/
def listMin : List ℚ → ℚ
  | [] => 0
  | x :: xs => xs.foldl min x

/-- The StackingProblem configuration record (immutable after construction). -/
structure Problem where
  max_height : List ℕ
  due_dates : List ℚ
  handover_time : ℚ
  horizontal_speed : ℚ
  vertical_speed : ℚ
  crane_height : ℚ
  handover_stack : ℕ
  initial_stacks : List (List ℕ)
  deriving DecidableEq

/-- The mutable StackingState.  The Python object also stores a reference to
the problem; the embedding passes the `Problem` explicitly instead. -/
structure StackingState where
  «stacks» : List (List ℕ)
  handover_ready_time : ℚ
  current_time : ℚ
  overdue_sqr : ℚ
  block_lookup : List (ℕ × (ℕ × ℕ))
  move_durations : List (ℕ × ℚ)
  sorted_dues : List (ℕ × ℚ)
  deriving DecidableEq

/-- weigh_if_positive: `x if x > 0 else 0.000001 * x`.  The literal 0.000001
denotes the rational 1/1000000. -/
def weigh_if_positive (x : ℚ) : ℚ := if x > 0 then x else 0.000001 * x

/-- get_relocation_duration: horizontal travel plus the rise above both stack
heights.  Positions and heights are passed as integers exactly as the Python
call sites do (a negative from-position enters the formula unchanged). -/
def get_relocation_duration (p : Problem) (from_pos to_pos from_height to_height : ℤ) : ℚ :=
  ((|from_pos - to_pos| : ℤ) : ℚ) / p.horizontal_speed +
    ((p.crane_height - (from_height : ℚ)) + (p.crane_height - (to_height : ℚ))) / p.vertical_speed

/-- calc_remove_dur for a block located at stack `si`, height `h`: the duration
of relocating it directly to the handover stack (to_height 0).  The Python
method reads the position from block_lookup; every call site of this embedding
passes exactly the pair stored there. -/
def calc_remove_dur (p : Problem) (si h : ℕ) : ℚ :=
  get_relocation_duration p si p.handover_stack h 0

/-- determine_time: __move_time duration (from-height = source length - 1,
to-height = destination length), plus the handover waiting delta. -/
def determine_time (p : Problem) (s : StackingState) (from_stack to_stack : ℤ) : Except Err ℚ :=
  match pyGet s.«stacks» from_stack with
  | .error e => .error e
  | .ok lf =>
    match pyGet s.«stacks» to_stack with
    | .error e => .error e
    | .ok lt =>
      let dur := get_relocation_duration p from_stack to_stack ((lf.length : ℤ) - 1) (lt.length : ℤ)
      let delta :=
        if to_stack = (p.handover_stack : ℤ) then
          if s.handover_ready_time - dur - s.current_time < 0 then 0
          else s.handover_ready_time - dur - s.current_time
        else 0
      .ok (s.current_time + dur + delta)

/-- The mutation core of apply_relocation, reached after the precondition
checks: set the new current time, pop the top block of the source, then either
push it onto the destination (updating its lookup entry and cached removal
duration) or deliver it to the handover stack (updating handover readiness,
the penalty accumulator, and removing the block from all indices). -/
def relocCore (p : Problem) (s : StackingState) (from_stack to_stack : ℤ) :
    Except Err (StackingState × Option Bool) :=
  match determine_time p s from_stack to_stack with
  | .error e => .error e
  | .ok newTime =>
    match pyIdx s.«stacks».length from_stack with
    | none => .error .indexError
    | some fi =>
      match (s.«stacks».getD fi []).getLast? with
      | none => .error .indexError
      | some block =>
        if to_stack = (p.handover_stack : ℤ) then
          match pyGetNat p.due_dates block with
          | .error e => .error e
          | .ok due =>
            match dpop s.block_lookup block with
            | .error e => .error e
            | .ok bl2 =>
              match dpop s.move_durations block with
              | .error e => .error e
              | .ok md2 =>
                match sremove s.sorted_dues (block, due) with
                | .error e => .error e
                | .ok sd2 =>
                  .ok ({ s with
                          «stacks» := s.«stacks».set fi (s.«stacks».getD fi []).dropLast,
                          current_time := newTime,
                          handover_ready_time := newTime + p.handover_time,
                          overdue_sqr := s.overdue_sqr + weigh_if_positive (newTime - due),
                          block_lookup := bl2,
                          move_durations := md2,
                          sorted_dues := sd2 }, none)
        else
          match pyIdx (s.«stacks».set fi (s.«stacks».getD fi []).dropLast).length to_stack with
          | none => .error .indexError
          | some ti =>
            .ok ({ s with
                    «stacks» := (s.«stacks».set fi (s.«stacks».getD fi []).dropLast).set ti
                      (((s.«stacks».set fi (s.«stacks».getD fi []).dropLast).getD ti []) ++ [block]),
                    current_time := newTime,
                    block_lookup := dset s.block_lookup block
                      (ti, ((s.«stacks».set fi (s.«stacks».getD fi []).dropLast).getD ti []).length),
                    move_durations := dset s.move_durations block
                      (calc_remove_dur p ti
                        ((s.«stacks».set fi (s.«stacks».getD fi []).dropLast).getD ti []).length) },
              none)

/-- StackingState.apply_relocation.  The result pairs the post-state with the
Python return value: `none` (Python None) on the success path, which has no
return statement, and `some false` on a precondition failure in try-mode.
Strict-mode precondition failures and indexing/lookup errors are `Except`
errors.  Note that the index-range and max-height checks run only when the
destination is not the handover stack, and that the initial emptiness test
indexes the list before try-mode is consulted (so a genuinely out-of-range
source index raises IndexError even in try-mode). -/
def apply_relocation (p : Problem) (s : StackingState) (from_stack to_stack : ℤ)
    (try_mode : Bool) : Except Err (StackingState × Option Bool) :=
  match pyGet s.«stacks» from_stack with
  | .error e => .error e
  | .ok fromList =>
    if fromList = [] then
      if try_mode then .ok (s, some false) else .error .valueEmpty
    else if to_stack = (p.handover_stack : ℤ) then
      relocCore p s from_stack to_stack
    else
      if from_stack < 0 ∨ to_stack < 0 ∨ (s.«stacks».length : ℤ) ≤ from_stack ∨
          (s.«stacks».length : ℤ) ≤ to_stack then
        if try_mode then .ok (s, some false) else .error .valueRange
      else
        match pyGet p.max_height to_stack with
        | .error e => .error e
        | .ok mh =>
          match pyGet s.«stacks» to_stack with
          | .error e => .error e
          | .ok toList =>
            if mh < toList.length + 1 then
              if try_mode then .ok (s, some false) else .error .valueOverflow
            else relocCore p s from_stack to_stack

/-- is_empty: all of the stacks have length zero. -/
def StackingState.is_empty (s : StackingState) : Bool :=
  s.«stacks».all (fun stack => stack.length == 0)

/-- Ordering used by the due-date index: ascending due time, ties by block id
(SortedSet built from `enumerate(due_dates)` with a stable sort on the due
key yields exactly this order). -/
def dueOrd (a b : ℕ × ℚ) : Prop := a.2 < b.2 ∨ (a.2 = b.2 ∧ a.1 ≤ b.1)

instance : DecidableRel dueOrd := fun a b => by unfold dueOrd; infer_instance

/-- enumerate(due_dates) as (block id, due time) pairs. -/
def enumDues (dues : List ℚ) : List (ℕ × ℚ) :=
  (List.range dues.length).map (fun b => (b, dues.getD b 0))

/-- The initial due-date index: all blocks, sorted by due time. -/
def mkSortedDues (dues : List ℚ) : List (ℕ × ℚ) :=
  List.insertionSort dueOrd (enumDues dues)

/-- The (block, stack index, height) triples enumerated from one stack,
starting at height `h`. -/
def stackTriples (si : ℕ) : ℕ → List ℕ → List (ℕ × ℕ × ℕ)
  | _, [] => []
  | h, b :: bs => (b, si, h) :: stackTriples si (h + 1) bs

/-- The (block, stack index, height) triples of all the stacks, numbering them
from `si`. -/
def triplesAux : ℕ → List (List ℕ) → List (ℕ × ℕ × ℕ)
  | _, [] => []
  | si, st :: rest => stackTriples si 0 st ++ triplesAux (si + 1) rest

def triples («stacks» : List (List ℕ)) : List (ℕ × ℕ × ℕ) := triplesAux 0 «stacks»

/-- StackingState.__init__ from the given stacks at time `t`: block_lookup and
move_durations are dict comprehensions over the stack contents, sorted_dues
is the full due-date index. -/
def initState (p : Problem) («stacks» : List (List ℕ)) (t : ℚ) : StackingState :=
  { «stacks» := «stacks»
    handover_ready_time := t
    current_time := t
    overdue_sqr := 0
    block_lookup := (triples «stacks»).foldl (fun d e => dset d e.1 e.2) []
    move_durations :=
      (triples «stacks»).foldl (fun d e => dset d e.1 (calc_remove_dur p e.2.1 e.2.2)) []
    sorted_dues := mkSortedDues p.due_dates }

/-- StackingSolution: a state, the relocation log, and the lazily cached
lower bound. -/
structure StackingSolution where
  state : StackingState
  relocations : List (ℤ × ℤ)
  lower_bound_cache : Option ℚ
  deriving DecidableEq

/-- is_feasible: the state is empty. -/
def is_feasible (sol : StackingSolution) : Bool := sol.state.is_empty

/-- The value computed by StackingSolution.lower_bound when the cache is cold:
walk the due-date index in ascending due order, advancing a hypothetical clock
by max(min cached removal duration, handover time) per block, and accumulate
the weighted hypothetical tardiness on top of the penalty collected so far. -/
def lower_bound_value (p : Problem) (s : StackingState) : ℚ :=
  let minmove := if s.move_durations.length > 0 then listMin (s.move_durations.map (fun e => e.2)) else 0
  let fold := s.sorted_dues.foldl
    (fun acc bd =>
      let t := acc.1 + max minmove p.handover_time
      (t, acc.2 + weigh_if_positive (t - bd.2)))
    (s.current_time, 0)
  s.overdue_sqr + fold.2

/-- StackingSolution.lower_bound: return the cache when warm, otherwise
compute and fill it.  The pair is (value, solution after the call). -/
def lower_bound (p : Problem) (sol : StackingSolution) : ℚ × StackingSolution :=
  match sol.lower_bound_cache with
  | some v => (v, sol)
  | none =>
    let v := lower_bound_value p sol.state
    (v, { sol with lower_bound_cache := some v })

/-- StackingSolution.objective_value: None when infeasible, otherwise the
lower bound (which at a feasible state is the accumulated penalty). -/
def objective_value (p : Problem) (sol : StackingSolution) : Option ℚ × StackingSolution :=
  if is_feasible sol then
    let r := lower_bound p sol
    (some r.1, r.2)
  else (none, sol)

/-- StackingSolution.copy_solution: stack contents, log and bound cache are duplicated;
in the pure embedding this is the identity. -/
def copy_solution (sol : StackingSolution) : StackingSolution := sol

/-- StackingProblem.empty_solution: the initial stacks at time zero, empty log. -/
def empty_solution (p : Problem) : StackingSolution :=
  { state := initState p p.initial_stacks 0
    relocations := []
    lower_bound_cache := none }

/-- An AddRelocationMove (the neighbourhood back-reference carries no data
beyond the problem and is omitted). -/
structure AddRelocationMove where
  from_stack : ℤ
  to_stack : ℤ
  deriving DecidableEq

namespace AddRelocationMove

/-- Python truthiness of the value returned by apply_relocation:
None is falsy. -/
def truthy : Option Bool → Bool
  | none => false
  | some b => b

/-- AddRelocationMove.try_apply_move: apply in try-mode; if the returned value
is falsy report failure (the state keeps whatever mutation the call made),
otherwise log the relocation, invalidate the bound cache and report success. -/
def try_apply_move (p : Problem) (m : AddRelocationMove) (sol : StackingSolution) :
    Except Err (StackingSolution × Bool) :=
  match apply_relocation p sol.state m.from_stack m.to_stack true with
  | .error e => .error e
  | .ok (s2, ret) =>
    if truthy ret then
      .ok ({ state := s2,
             relocations := sol.relocations ++ [(m.from_stack, m.to_stack)],
             lower_bound_cache := none }, true)
    else
      .ok ({ sol with state := s2 }, false)

/-- AddRelocationMove.apply_move: strict application, then log the relocation
and invalidate the bound cache. -/
def apply_move (p : Problem) (m : AddRelocationMove) (sol : StackingSolution) :
    Except Err StackingSolution :=
  match apply_relocation p sol.state m.from_stack m.to_stack false with
  | .error e => .error e
  | .ok (s2, _) =>
    .ok { state := s2,
          relocations := sol.relocations ++ [(m.from_stack, m.to_stack)],
          lower_bound_cache := none }

/-- AddRelocationMove.lower_bound_increment: copy, apply, and return the new
bound minus the old bound (a full recomputation, per the code comment). -/
def lower_bound_increment (p : Problem) (m : AddRelocationMove) (sol : StackingSolution) :
    Except Err ℚ :=
  match apply_move p m (copy_solution sol) with
  | .error e => .error e
  | .ok next => .ok ((lower_bound p next).1 - (lower_bound p sol).1)

/-- AddRelocationMove.objective_value_increment delegates to
lower_bound_increment. -/
def objective_value_increment (p : Problem) (m : AddRelocationMove) (sol : StackingSolution) :
    Except Err ℚ :=
  lower_bound_increment p m sol

end AddRelocationMove

/-- AddRelocationNeighbourhood.moves with only_handover=True: every non-empty
stack other than the handover stack, paired with the handover stack. -/
def movesOnlyHandover (p : Problem) (sol : StackingSolution) : List AddRelocationMove :=
  ((List.range sol.state.«stacks».length).filter
    (fun si => !(sol.state.«stacks».getD si []).isEmpty && !(si == p.handover_stack))).map
    (fun si => { from_stack := (si : ℤ), to_stack := (p.handover_stack : ℤ) })

/-- Replaying a relocation log from the empty solution by strict move
application, in order. -/
def replay_log (p : Problem) (l : List (ℤ × ℤ)) : Except Err StackingSolution :=
  l.foldlM
    (fun sol ft => AddRelocationMove.apply_move p { from_stack := ft.1, to_stack := ft.2 } sol)
    (empty_solution p)

/-- ChangeAndRepairMoveType. -/
inductive ChangeAndRepairMoveType where
  | INSERT
  | REMOVE
  | SWITCH
  deriving DecidableEq

/-- A ChangeAndRepairMove (neighbourhood back-reference omitted as before). -/
structure ChangeAndRepairMove where
  move_type : ChangeAndRepairMoveType
  move_index : ℕ
  from_stack : ℤ := 0
  to_stack : ℤ := 0
  swich_index : ℕ := 0
  deriving DecidableEq

/-- Python `min` by key, returning the first element whose key is minimal. -/
def minByFirstAux {α : Type} (a : α) (k : ℚ) : List (α × ℚ) → α
  | [] => a
  | (b, k2) :: rest => if k2 < k then minByFirstAux b k2 rest else minByFirstAux a k rest

def minByFirst {α : Type} : List (α × ℚ) → Option α
  | [] => none
  | (a, k) :: rest => some (minByFirstAux a k rest)

/-- Number of blocks still sitting in the stacks. -/
def blocksLeft (s : StackingState) : ℕ := (s.«stacks».map List.length).sum

/-- The greedy repair loop of ChangeAndRepairMove.apply_move: while the
solution is infeasible, pick the handover-directed construction move with the
smallest lower-bound increment (first wins on ties, matching Python `min`)
and apply it strictly.  Each iteration delivers exactly one block, so the
Python `while` terminates; the fuel passed in is the number of blocks left. -/
def repair (p : Problem) : ℕ → StackingSolution → Except Err StackingSolution
  | 0, sol => if is_feasible sol then .ok sol else .error .loopLimit
  | fuel + 1, sol =>
    if is_feasible sol then .ok sol
    else
      match (movesOnlyHandover p sol).mapM
          (fun m => (AddRelocationMove.lower_bound_increment p m sol).map (fun k => (m, k))) with
      | .error e => .error e
      | .ok keyed =>
        match minByFirst keyed with
        | none => .error .valueOther
        | some m =>
          match AddRelocationMove.apply_move p m sol with
          | .error e => .error e
          | .ok sol2 => repair p fuel sol2

/-- The replay loop of ChangeAndRepairMove.apply_move: walk the original log
with index `i`, splicing in the inserted move, substituting the switched move,
or skipping entries, and stop the whole replay as soon as any try_apply_move
reports failure (Python `break`).  The inserted/substituted entry at position
`move_index` is applied *in addition to* the original entry there, exactly as
the Python `if/elif` chain falls through to the final try_apply_move. -/
def crLoop (p : Problem) (mt : ChangeAndRepairMoveType) (mi : ℕ) (ins sw : ℤ × ℤ) (si : ℕ) :
    ℕ → List (ℤ × ℤ) → StackingSolution → Except Err StackingSolution
  | _, [], sol => .ok sol
  | i, ft :: rest, sol =>
    if mt = .INSERT ∧ i = mi then
      match AddRelocationMove.try_apply_move p { from_stack := ins.1, to_stack := ins.2 } sol with
      | .error e => .error e
      | .ok (s1, r1) =>
        if r1 = false then .ok s1
        else
          match AddRelocationMove.try_apply_move p { from_stack := ft.1, to_stack := ft.2 } s1 with
          | .error e => .error e
          | .ok (s2, r2) =>
            if r2 = false then .ok s2 else crLoop p mt mi ins sw si (i + 1) rest s2
    else if mt = .SWITCH ∧ i = mi then
      match AddRelocationMove.try_apply_move p { from_stack := sw.1, to_stack := sw.2 } sol with
      | .error e => .error e
      | .ok (s1, r1) =>
        if r1 = false then .ok s1
        else
          match AddRelocationMove.try_apply_move p { from_stack := ft.1, to_stack := ft.2 } s1 with
          | .error e => .error e
          | .ok (s2, r2) =>
            if r2 = false then .ok s2 else crLoop p mt mi ins sw si (i + 1) rest s2
    else if mt = .SWITCH ∧ i = si then
      crLoop p mt mi ins sw si (i + 1) rest sol
    else if mt = .REMOVE ∧ i = mi then
      crLoop p mt mi ins sw si (i + 1) rest sol
    else
      match AddRelocationMove.try_apply_move p { from_stack := ft.1, to_stack := ft.2 } sol with
      | .error e => .error e
      | .ok (s2, r2) =>
        if r2 = false then .ok s2 else crLoop p mt mi ins sw si (i + 1) rest s2

namespace ChangeAndRepairMove

/-- ChangeAndRepairMove.apply_move: read the switch entry, replay the edited
log from a fresh empty solution, handle the insert/switch-at-end cases
(their try results are discarded), then greedily repair to feasibility. -/
def apply_move (p : Problem) (m : ChangeAndRepairMove) (sol : StackingSolution) :
    Except Err StackingSolution :=
  match pyGetNat sol.relocations m.swich_index with
  | .error e => .error e
  | .ok sw =>
    match crLoop p m.move_type m.move_index (m.from_stack, m.to_stack) sw m.swich_index
        0 sol.relocations (empty_solution p) with
    | .error e => .error e
    | .ok s1 =>
      let afterEnd : Except Err StackingSolution :=
        if m.move_index = sol.relocations.length ∧ m.move_type = .INSERT then
          match AddRelocationMove.try_apply_move p
              { from_stack := m.from_stack, to_stack := m.to_stack } s1 with
          | .error e => .error e
          | .ok (s2, _) => .ok s2
        else if m.move_index = sol.relocations.length ∧ m.move_type = .SWITCH then
          match AddRelocationMove.try_apply_move p
              { from_stack := sw.1, to_stack := sw.2 } s1 with
          | .error e => .error e
          | .ok (s2, _) => .ok s2
        else .ok s1
      match afterEnd with
      | .error e => .error e
      | .ok s2 => repair p (blocksLeft s2.state) s2

end ChangeAndRepairMove

/-- One step of sparse_fisher_yates_iter, processing index `i` (counting
down): draw `r = d i` with `0 ≤ r ≤ i`, yield the current substitute for `r`,
and when `i ≠ r` record the substitute for `i` under `r`.  The substitute
dict is embedded as the function it represents (`p.get(k, k)` is `f k`, and
the initial empty dict is the identity function). -/
def sfyAux (d : ℕ → ℕ) : (ℕ → ℕ) → ℕ → List ℕ
  | _, 0 => []
  | f, i + 1 =>
    let r := d i
    f r :: sfyAux d (if i = r then f else Function.update f r (f i)) i

/-- sparse_fisher_yates_iter(n), with the outcomes of `random.randrange(i+1)`
supplied as the draw function `d` (the draw used at loop index `i` is `d i`,
constrained to `d i ≤ i` by randrange). -/
def sparse_fisher_yates_iter (n : ℕ) (d : ℕ → ℕ) : List ℕ := sfyAux d id n

/-- Python random.choice: IndexError on an empty sequence, otherwise the
element selected by the draw `k` (every element is reachable for some `k`). -/
def randChoice {α : Type} (l : List α) (k : ℕ) : Except Err α :=
  match l with
  | [] => .error .indexError
  | x :: xs => .ok ((x :: xs).getD (k % (xs.length + 1)) x)

/-- ChangeAndRepairNeighborhood.random_move, with the outcomes of the random
draws supplied as arguments: the move kind, the randint(0, len) log-position
draw, and selector draws for the three random.choice calls. -/
def random_move (p : Problem) (sol : StackingSolution) (kind : ChangeAndRepairMoveType)
    (iDraw cFrom cTo cJ : ℕ) : Except Err ChangeAndRepairMove :=
  let i := if sol.relocations.length > 0 then iDraw else 0
  match kind with
  | .INSERT =>
    match randChoice ((List.range sol.state.«stacks».length).filter
        (fun si => decide (0 < (sol.state.«stacks».getD si []).length)
          && !(si == p.handover_stack))) cFrom with
    | .error e => .error e
    | .ok f =>
      match randChoice ((List.range sol.state.«stacks».length).filter
          (fun si => !(si == f))) cTo with
      | .error e => .error e
      | .ok t =>
        .ok { move_type := .INSERT, move_index := i, from_stack := (f : ℤ), to_stack := (t : ℤ) }
  | .REMOVE => .ok { move_type := .REMOVE, move_index := i }
  | .SWITCH =>
    match (if sol.relocations.length > 1 then
        randChoice ((List.range sol.relocations.length).filter (fun si => !(si == i))) cJ
      else .ok 0) with
    | .error e => .error e
    | .ok j => .ok { move_type := .SWITCH, move_index := i, swich_index := j }

/-- All blocks currently in the stacks, in stack order. -/
def allBlocks (sks : List (List ℕ)) : List ℕ := sks.flatten

/-- A well-formed problem instance: the initial stacks hold exactly the blocks
0 .. len(due_dates)-1, each once (the due-date sequence indexes blocks). -/
def Wf (p : Problem) : Prop :=
  (allBlocks p.initial_stacks).Perm (List.range p.due_dates.length)

instance (p : Problem) : Decidable (Wf p) := by unfold Wf; infer_instance

/-- States reachable from the initial state of a problem by successful
relocation applications (strict or try-mode; `none` is the Python return
value of the success path). -/
inductive Reach (p : Problem) : StackingState → Prop where
  | init : Reach p (initState p p.initial_stacks 0)
  | step {s : StackingState} {f t : ℤ} {m : Bool} {s2 : StackingState} :
      Reach p s → apply_relocation p s f t m = .ok (s2, none) → Reach p s2

/-- The block sitting in stack `si` at height `h`, when there is one. -/
def cellAt (sks : List (List ℕ)) (si h : ℕ) : Option ℕ :=
  (sks.get? si).bind (fun st => st.get? h)

/-- The conservation invariant of a stacking state: the in-stack blocks are
pairwise distinct and all carry due dates, the block-location map records
exactly the in-stack positions, and the due-date index holds exactly the
in-stack blocks (with their correct due dates, each once). -/
def StateInv (p : Problem) (s : StackingState) : Prop :=
  (allBlocks s.«stacks»).Nodup ∧
  (∀ b si h, dget s.block_lookup b = some (si, h) ↔ cellAt s.«stacks» si h = some b) ∧
  (∀ b, (∃ d, (b, d) ∈ s.sorted_dues) ↔ b ∈ allBlocks s.«stacks») ∧
  (∀ b d, (b, d) ∈ s.sorted_dues → p.due_dates.get? b = some d) ∧
  (s.sorted_dues.map Prod.fst).Nodup


/-- Projection of an `Except` result to `Option` (for stating evaluations). -/
def exOk {α : Type} : Except Err α → Option α
  | .ok a => some a
  | .error _ => none

/-- The concrete problem of the spec's scenario section: three stacks of max
height 3, blocks 0,1,2 all due at 0, handover time 0, unit speeds, crane
height 3, handover stack 0, initial stacks [[], [0], [1, 2]]. -/
def exP : Problem :=
  { max_height := [3, 3, 3], due_dates := [0, 0, 0], handover_time := 0,
    horizontal_speed := 1, vertical_speed := 1, crane_height := 3,
    handover_stack := 0, initial_stacks := [[], [0], [1, 2]] }

/-- A two-stack instance whose handover service time (10) exceeds every
relocation duration; block 0 is due at 0. -/
def gapP : Problem :=
  { max_height := [2, 2], due_dates := [0], handover_time := 10,
    horizontal_speed := 1, vertical_speed := 1, crane_height := 1,
    handover_stack := 0, initial_stacks := [[], [0]] }

/-- The solution reached from the empty solution of `exP` by the strict
construction moves (2,0), (2,0), (1,0): all three blocks delivered. -/
def c9sol : StackingSolution :=
  (exOk (replay_log exP [(2, 0), (2, 0), (1, 0)])).getD (empty_solution exP)

/-- The solution obtained by strictly applying the move (1,0) to the empty
solution of `exP` (block 0 delivered at time 7). -/
def c7next : StackingSolution :=
  (exOk (AddRelocationMove.apply_move exP { from_stack := 1, to_stack := 0 }
    (empty_solution exP))).getD (empty_solution exP)

/-!  Theorems.  The claim theorems C1-C10 are at the end; generic helper
lemmas about the embedded containers come first. -/

/-- C1. The claim says try-mode application never raises and reports success
(True) after applying a relocation, appending to the log and invalidating the
cache.  The code disagrees: `apply_relocation` has no `return` on its success
path, so it returns None, and `try_apply_move` treats that falsy value as
failure.  On the spec scenario problem, try-applying the legal move (1,0) to
the empty solution returns False, mutates the state (time 7, block 0
delivered) and leaves the relocation log empty; and an out-of-range source
index raises IndexError even in try-mode, because the emptiness test indexes
the stack list before any try-mode check runs. -/
theorem c1_try_apply_move_code_bug :
    ((exOk (AddRelocationMove.try_apply_move exP { from_stack := 1, to_stack := 0 }
        (empty_solution exP))).map
      (fun r => (r.2, r.1.relocations, r.1.state.current_time, r.1.state.«stacks»)) =
      some (false, [], 7, [[], [], [1, 2]])) ∧
    AddRelocationMove.try_apply_move exP { from_stack := 5, to_stack := 1 }
      (empty_solution exP) = .error .indexError := by
  decide

/-- C2. The claim (and the repository's own test_lower_bound_property) says
the lower bound of every intermediate solution is at most the final objective
value.  On `gapP` (handover time 10, single block delivering in 3 time units)
the empty solution's bound is 10, yet the sequence [(1,0)] reaches a feasible
solution with objective 3: the bound charges the handover service time to the
first delivery, which never waits, so it overestimates. -/
theorem c2_lower_bound_overestimates :
    (lower_bound gapP (empty_solution gapP)).1 = 10 ∧
    (exOk (replay_log gapP [(1, 0)])).map
      (fun sol => (is_feasible sol, (objective_value gapP sol).1)) = some (true, some 3) ∧
    ¬ (lower_bound gapP (empty_solution gapP)).1 ≤ 3 := by
  refine ⟨by decide, by decide, by decide⟩

/-- C3. The claim says replaying any reachable solution's relocation log
strictly from a fresh empty solution reproduces its state.  Because
try_apply_move reports failure on success (see C1), the perturbation replay
loop of ChangeAndRepairMove.apply_move breaks after its first successful
try-application without logging it: on the solution built by the construction
moves (2,0),(2,0),(1,0), the REMOVE-at-0 perturbation produces a solution
with log [(1,0),(2,0)], time 22 and empty stacks, while replaying that log
gives time 14 and a leftover block in stack 2. -/
theorem c3_replay_divergence :
    ((exOk (replay_log exP [(2, 0), (2, 0), (1, 0)])).map
      (fun sol => (is_feasible sol, sol.relocations)) =
      some (true, [(2, 0), (2, 0), (1, 0)])) ∧
    ((exOk ((replay_log exP [(2, 0), (2, 0), (1, 0)]).bind
        (fun sol =>
          ChangeAndRepairMove.apply_move exP { move_type := .REMOVE, move_index := 0 } sol))).map
      (fun sol => (sol.relocations, sol.state.current_time, sol.state.«stacks»)) =
      some ([(1, 0), (2, 0)], 22, [[], [], []])) ∧
    ((exOk (replay_log exP [(1, 0), (2, 0)])).map
      (fun sol => (sol.state.current_time, sol.state.«stacks»)) =
      some (14, [[], [], [1]])) ∧
    ((exOk ((replay_log exP [(2, 0), (2, 0), (1, 0)]).bind
        (fun sol =>
          ChangeAndRepairMove.apply_move exP { move_type := .REMOVE, move_index := 0 } sol))).map
      (fun sol => sol.state) ≠
      (exOk (replay_log exP [(1, 0), (2, 0)])).map (fun sol => sol.state)) := by
  refine ⟨by decide, by decide, by decide, by decide⟩

/-- C6 counterexample. The claim says that for x ≤ 0 the weight is a
negligible near-zero term "rather than a reward (i.e. not a negative
contribution)".  At x = -1 the code returns 0.000001 * (-1) = -1/1000000,
which is strictly negative: a (tiny) reward. -/
theorem c6_weight_counterexample :
    weigh_if_positive (-1) = -(1 / 1000000) ∧ weigh_if_positive (-1) < 0 := by
  refine ⟨by decide, by decide⟩

/-- C6 amended. weigh_if_positive returns x itself for x > 0 (linear, not
quadratic, despite the overdue_sqr name), and for x ≤ 0 returns the very
small multiple 0.000001 * x, which is zero at 0 and strictly negative for
x < 0 (a negligible near-zero *negative* contribution, not a zero plateau). -/
theorem c6_weight_amended (x : ℚ) :
    (0 < x → weigh_if_positive x = x) ∧
    (x ≤ 0 → weigh_if_positive x = 0.000001 * x ∧ weigh_if_positive x ≤ 0 ∧
      (x < 0 → weigh_if_positive x < 0)) := by
  unfold weigh_if_positive
  constructor
  · intro hx
    rw [if_pos hx]
  · intro hx
    rw [if_neg (not_lt.mpr hx)]
    refine ⟨rfl, ?_, ?_⟩
    · exact mul_nonpos_of_nonneg_of_nonpos (by norm_num) hx
    · intro hneg
      exact mul_neg_of_pos_of_neg (by norm_num) hneg

/-- C6 amended, witness at x = 2 and x = -3. -/
theorem c6_weight_amended_witness :
    weigh_if_positive 2 = 2 ∧ weigh_if_positive (-3) = 0.000001 * (-3) ∧
    weigh_if_positive (-3) < 0 := by
  refine ⟨(c6_weight_amended 2).1 (by norm_num),
    ((c6_weight_amended (-3)).2 (by norm_num)).1,
    (((c6_weight_amended (-3)).2 (by norm_num)).2.2 (by norm_num))⟩

/-- An `if x < 0 then 0 else x` guard is the truncation `max 0 x`. -/
theorem if_neg_zero_eq_max (x : ℚ) : (if x < 0 then (0 : ℚ) else x) = max 0 x := by
  split
  · exact (max_eq_left (le_of_lt (by assumption))).symm
  · exact (max_eq_right (not_lt.mp (by assumption))).symm

/-- get_relocation_duration, with the integer casts pushed inside. -/
theorem get_relocation_duration_cast (p : Problem) (f t fh th : ℤ) :
    get_relocation_duration p f t fh th =
      |(f : ℚ) - (t : ℚ)| / p.horizontal_speed +
        ((p.crane_height - (fh : ℚ)) + (p.crane_height - (th : ℚ))) / p.vertical_speed := by
  unfold get_relocation_duration
  push_cast
  ring

/-- C4. Time and duration model: for any relocation of the top block of stack
`f` to stack `t` (source contents `lf`, destination contents `lt`, with the
handover stack empty as in every state reachable from a problem whose
handover stack starts empty), the relocation duration is
|f - t| / horizontal_speed + ((crane_height - (|lf| - 1)) + (crane_height - th))
/ vertical_speed, where the from-height |lf| - 1 is the source height before
removal minus one and th is the destination height before insertion (0 for
the handover stack); the new current time adds the handover waiting term
max(0, handover_ready_time - duration - current_time) when the destination is
the handover stack and nothing otherwise.  On the spec scenario problem,
relocation (1,0) from the empty solution has duration 7 and yields current
time 7, penalty weight(7) = 7 and handover-ready time 7. -/
theorem c4_duration_and_waiting (p : Problem) (s : StackingState) (f t : ℤ)
    (lf lt : List ℕ) (d : ℚ)
    (hf : pyGet s.«stacks» f = .ok lf) (ht : pyGet s.«stacks» t = .ok lt)
    (hho : t = (p.handover_stack : ℤ) → lt = [])
    (hd : d = |(f : ℚ) - (t : ℚ)| / p.horizontal_speed +
      ((p.crane_height - ((lf.length : ℚ) - 1)) +
        (p.crane_height - (if t = (p.handover_stack : ℤ) then 0 else (lt.length : ℚ)))) /
        p.vertical_speed) :
    determine_time p s f t = .ok (if t = (p.handover_stack : ℤ) then
        s.current_time + d + max 0 (s.handover_ready_time - d - s.current_time)
      else s.current_time + d) ∧
    (exOk (apply_relocation exP (initState exP exP.initial_stacks 0) 1 0 false)).map
      (fun r => (r.1.current_time, r.1.overdue_sqr, r.1.handover_ready_time)) =
      some (7, 7, 7) ∧
    get_relocation_duration exP 1 0 0 0 = 7 := by
  refine ⟨?_, by decide, by decide⟩
  have hdd : get_relocation_duration p f t ((lf.length : ℤ) - 1) (lt.length : ℤ) = d := by
    rw [get_relocation_duration_cast, hd]
    by_cases hcase : t = (p.handover_stack : ℤ)
    · rw [if_pos hcase, hho hcase]
      norm_num
    · rw [if_neg hcase]
      norm_num
  simp only [determine_time, hf, ht]
  rw [hdd]
  by_cases hcase : t = (p.handover_stack : ℤ)
  · rw [if_pos hcase, if_pos hcase, if_neg_zero_eq_max]
  · rw [if_neg hcase, if_neg hcase, add_zero]

/-- C4 witness: the general part evaluated on the scenario problem at the
relocation (1,0) from the initial state, where the duration is 7. -/
theorem c4_duration_and_waiting_witness :
    determine_time exP (initState exP exP.initial_stacks 0) 1 0 = .ok 7 := by
  have h := (c4_duration_and_waiting exP (initState exP exP.initial_stacks 0) 1 0 [0] [] 7
    (by decide) (by decide) (fun _ => rfl) (by norm_num [exP])).1
  rw [h]
  decide

/-- C7. Increment consistency: for every solution and every construction move
whose strict application succeeds, lower_bound_increment computed before the
move equals lower_bound(after) - lower_bound(before) exactly (the code
computes it by copying, applying and differencing the bounds), and
objective_value_increment is the same quantity. -/
theorem c7_increment_exact (p : Problem) (m : AddRelocationMove)
    (sol next : StackingSolution)
    (h : AddRelocationMove.apply_move p m sol = .ok next) :
    AddRelocationMove.lower_bound_increment p m sol =
      .ok ((lower_bound p next).1 - (lower_bound p sol).1) ∧
    AddRelocationMove.objective_value_increment p m sol =
      AddRelocationMove.lower_bound_increment p m sol := by
  constructor
  · unfold AddRelocationMove.lower_bound_increment copy_solution
    rw [h]
  · rfl

/-- C7 witness: the move (1,0) on the empty solution of the scenario problem,
with `c7next` the solution after the move. -/
theorem c7_increment_exact_witness :
    AddRelocationMove.lower_bound_increment exP { from_stack := 1, to_stack := 0 }
      (empty_solution exP) =
    .ok ((lower_bound exP c7next).1 - (lower_bound exP (empty_solution exP)).1) :=
  (c7_increment_exact exP { from_stack := 1, to_stack := 0 } (empty_solution exP) c7next
    (by decide)).1

/-- A filter of `range n` removing one value is non-empty when `n > 1`. -/
theorem range_filter_ne_nonempty (n i : ℕ) (h : 1 < n) :
    (List.range n).filter (fun s => !(s == i)) ≠ [] := by
  intro hnil
  have hall := List.filter_eq_nil.mp hnil
  have h0 := hall 0 (List.mem_range.mpr (Nat.lt_of_lt_of_le Nat.zero_lt_one (le_of_lt h)))
  have h1 := hall 1 (List.mem_range.mpr h)
  have h0e : (0 : ℕ) = i := by simpa using h0
  have h1e : (1 : ℕ) = i := by simpa using h1
  exact Nat.zero_ne_one (h0e.trans h1e.symm)

/-- random.choice on a non-empty list succeeds. -/
theorem randChoice_ne_ok {α : Type} (l : List α) (k : ℕ) (h : l ≠ []) :
    ∃ v, randChoice l k = .ok v := by
  cases l with
  | nil => exact absurd rfl h
  | cons x xs => exact ⟨_, rfl⟩

/-- C9 counterexample.  The claim says random_move on a feasible solution with
a non-empty log never raises.  On the fully delivered scenario solution
`c9sol` (feasible, log of three entries), drawing the INSERT kind makes
random.choice sample from the list of non-empty non-handover stacks, which is
empty in a feasible solution: IndexError. -/
theorem c9_random_move_counterexample :
    is_feasible c9sol = true ∧ c9sol.relocations ≠ [] ∧
    random_move exP c9sol .INSERT 0 0 0 0 = .error .indexError := by
  refine ⟨by decide, by decide, by decide⟩

/-- C9 amended.  On a feasible solution, random_move returns a REMOVE move
(with the drawn log position, falling back to 0 for an empty log) or a SWITCH
move without raising, but the INSERT kind always raises IndexError because a
feasible solution has no non-empty non-handover stack to sample the
from-stack from. -/
theorem c9_random_move_amended (p : Problem) (sol : StackingSolution)
    (hfe : is_feasible sol = true) (iDraw a b c : ℕ) :
    random_move p sol .REMOVE iDraw a b c =
      .ok { move_type := .REMOVE,
            move_index := if sol.relocations.length > 0 then iDraw else 0 } ∧
    (∃ m, random_move p sol .SWITCH iDraw a b c = .ok m ∧ m.move_type = .SWITCH) ∧
    random_move p sol .INSERT iDraw a b c = .error .indexError := by
  have hzero : ∀ si, (sol.state.«stacks».getD si []).length = 0 := by
    intro si
    have hall := List.all_eq_true.mp hfe
    rw [List.getD_eq_getD_get?]
    cases hsi : sol.state.«stacks».get? si with
    | none => rfl
    | some st =>
      have hmem : st ∈ sol.state.«stacks» := List.get?_mem hsi
      have := hall st hmem
      simpa using this
  refine ⟨rfl, ?_, ?_⟩
  · simp only [random_move]
    by_cases hlen : sol.relocations.length > 1
    · rw [if_pos hlen]
      obtain ⟨v, hv⟩ := randChoice_ne_ok
        ((List.range sol.relocations.length).filter
          (fun si => !(si == if sol.relocations.length > 0 then iDraw else 0))) c
        (range_filter_ne_nonempty _ _ hlen)
      rw [hv]
      exact ⟨_, rfl, rfl⟩
    · rw [if_neg hlen]
      exact ⟨_, rfl, rfl⟩
  · simp only [random_move]
    have hfil : (List.range sol.state.«stacks».length).filter
        (fun si => decide (0 < (sol.state.«stacks».getD si []).length)
          && !(si == p.handover_stack)) = [] := by
      apply List.filter_eq_nil.mpr
      intro si _
      rw [hzero si]
      simp
    rw [hfil]
    rfl

/-- C9 amended, witness: the INSERT kind raises on the scenario solution. -/
theorem c9_random_move_amended_witness :
    random_move exP c9sol .INSERT 1 2 3 4 = .error .indexError :=
  (c9_random_move_amended exP c9sol (by decide) 1 2 3 4).2.2

/-- Updating `f` at `r < k` and mapping over `range k` exchanges exactly the
value at position `r`: as multisets, the old value `f r` plus the new map
equals the new value `v` plus the old map. -/
theorem map_update_msetEq (f : ℕ → ℕ) (r v : ℕ) : ∀ (k : ℕ), r < k →
    f r ::ₘ (((List.range k).map (Function.update f r v) : List ℕ) : Multiset ℕ) =
    v ::ₘ (((List.range k).map f : List ℕ) : Multiset ℕ) := by
  intro k
  induction k with
  | zero => intro h; exact absurd h (Nat.not_lt_zero r)
  | succ k ih =>
    intro hrk
    rw [List.range_succ, List.map_append, List.map_append]
    by_cases hr : r = k
    · subst hr
      have hmapeq : (List.range r).map (Function.update f r v) = (List.range r).map f := by
        apply List.map_congr_left
        intro x hx
        exact Function.update_noteq (Nat.ne_of_lt (List.mem_range.mp hx)) v f
      rw [hmapeq]
      simp only [List.map_cons, List.map_nil, Function.update_same]
      rw [← Multiset.coe_add, ← Multiset.coe_add]
      simp only [Multiset.coe_singleton]
      rw [← Multiset.singleton_add, ← Multiset.singleton_add]
      abel
    · have hrk2 : r < k := Nat.lt_of_le_of_ne (Nat.le_of_lt_succ hrk) hr
      have hupk : Function.update f r v k = f k := Function.update_noteq (Ne.symm hr) v f
      simp only [List.map_cons, List.map_nil, hupk]
      rw [← Multiset.coe_add, ← Multiset.coe_add]
      rw [← Multiset.cons_add, ← Multiset.cons_add]
      rw [ih hrk2]

/-- The stream produced by `sfyAux` from substitute function `f` over indices
`k-1 .. 0` is a permutation of the image of `f` on `0 .. k-1`, whenever every
draw respects its randrange bound. -/
theorem sfyAux_perm (d : ℕ → ℕ) : ∀ (k : ℕ) (f : ℕ → ℕ), (∀ i, i < k → d i ≤ i) →
    (sfyAux d f k).Perm ((List.range k).map f) := by
  intro k
  induction k with
  | zero =>
    intro f _
    simp [sfyAux]
  | succ k ih =>
    intro f hd
    have hdk : d k ≤ k := hd k (Nat.lt_succ_self k)
    have htail : ∀ i, i < k → d i ≤ i := fun i hi => hd i (Nat.lt_succ_of_lt hi)
    show (f (d k) ::
      sfyAux d (if k = d k then f else Function.update f (d k) (f k)) k).Perm
      ((List.range (k + 1)).map f)
    rw [List.range_succ, List.map_append]
    by_cases hkr : k = d k
    · rw [if_pos hkr]
      have hperm := (ih f htail).cons (f (d k))
      refine hperm.trans ?_
      rw [← hkr]
      simpa using (List.perm_append_singleton (f k) ((List.range k).map f)).symm
    · rw [if_neg hkr]
      have hrk : d k < k := Nat.lt_of_le_of_ne hdk (fun he => hkr he.symm)
      apply Multiset.coe_eq_coe.mp
      rw [← Multiset.cons_coe]
      have hihm : ((sfyAux d (Function.update f (d k) (f k)) k : List ℕ) : Multiset ℕ) =
          (((List.range k).map (Function.update f (d k) (f k)) : List ℕ) : Multiset ℕ) :=
        Multiset.coe_eq_coe.mpr (ih (Function.update f (d k) (f k)) htail)
      rw [Multiset.cons_coe, ← Multiset.cons_coe, hihm]
      rw [map_update_msetEq f (d k) (f k) k hrk]
      rw [← Multiset.coe_add]
      simp only [List.map_cons, List.map_nil]
      simp only [Multiset.coe_singleton]
      rw [add_comm, Multiset.singleton_add]

/-- C8.  sparse_fisher_yates_iter(n) yields exactly n values forming a
permutation of 0..n-1, for every outcome of the random draws (each randrange
draw `d i` satisfies `d i ≤ i`). -/
theorem c8_sparse_fisher_yates (n : ℕ) (d : ℕ → ℕ) (hd : ∀ i, i < n → d i ≤ i) :
    (sparse_fisher_yates_iter n d).length = n ∧
    (sparse_fisher_yates_iter n d).Perm (List.range n) := by
  have hperm : (sparse_fisher_yates_iter n d).Perm (List.range n) := by
    have h := sfyAux_perm d n id hd
    simpa [sparse_fisher_yates_iter] using h
  exact ⟨hperm.length_eq.trans (List.length_range n), hperm⟩

/-- C8 witness at n = 3 with the all-zero draw sequence. -/
theorem c8_sparse_fisher_yates_witness :
    (sparse_fisher_yates_iter 3 (fun _ => 0)).length = 3 ∧
    (sparse_fisher_yates_iter 3 (fun _ => 0)).Perm (List.range 3) :=
  c8_sparse_fisher_yates 3 (fun _ => 0) (fun i _ => Nat.zero_le i)

/-- A dict lookup after popping the same key yields nothing. -/
theorem find_filter_not_self {α : Type} (d : List (ℕ × α)) (k : ℕ) :
    (d.filter (fun e => !(e.1 == k))).find? (fun e => e.1 == k) = none := by
  apply List.find?_eq_none.mpr
  intro x hx
  have h2 := (List.mem_filter.mp hx).2
  simp only [Bool.not_eq_true'] at h2
  simp [h2]

theorem dget_filter_self {α : Type} (d : List (ℕ × α)) (k : ℕ) :
    dget (d.filter (fun e => !(e.1 == k))) k = none := by
  unfold dget
  rw [find_filter_not_self]
  rfl

/-- In a list of pairs with pairwise-distinct keys, two members with the same
key are the same pair. -/
theorem nodup_keys_pair_eq {α : Type} (l : List (ℕ × α)) (hnd : (l.map Prod.fst).Nodup) :
    ∀ x y, x ∈ l → y ∈ l → x.1 = y.1 → x = y := by
  induction l with
  | nil => intro x y hx _ _; cases hx
  | cons e t ih =>
    intro x y hx hy hxy
    rw [List.map_cons, List.nodup_cons] at hnd
    cases hx with
    | head =>
      cases hy with
      | head => rfl
      | tail _ hyt =>
        exact absurd (hxy ▸ List.mem_map_of_mem Prod.fst hyt) hnd.1
    | tail _ hxt =>
      cases hy with
      | head => exact absurd (hxy ▸ List.mem_map_of_mem Prod.fst hxt) hnd.1
      | tail _ hyt => exact ih hnd.2 x y hxt hyt hxy

/-- After SortedSet.remove of the unique pair with key `b`, no pair with key
`b` remains (keys are pairwise distinct). -/
theorem key_not_mem_erase (l : List (ℕ × ℚ)) (b : ℕ) (due x : ℚ)
    (hnd : (l.map Prod.fst).Nodup) (hmem : (b, due) ∈ l) :
    (b, x) ∉ l.erase (b, due) := by
  intro hx
  have hxl : (b, x) ∈ l := List.mem_of_mem_erase hx
  have heq : ((b, x) : ℕ × ℚ) = (b, due) := nodup_keys_pair_eq l hnd _ _ hxl hmem rfl
  rw [heq] at hx
  have hpnd : l.Nodup := List.Nodup.of_map Prod.fst hnd
  exact ((List.Nodup.mem_erase_iff hpnd).mp hx).1 rfl

/-- C10.  A negative source index with the handover stack as destination:
because the index-range check only runs when the destination is not the
handover stack, apply_relocation in strict mode raises no precondition error;
the negative index wraps (Python list indexing) and the top block `b` of
stack `n + f` is delivered to the handover stack (removed from the location
map, the duration cache and the due-date index, with the handover-ready time
advanced by the service time). -/
theorem c10_negative_index_delivery (p : Problem) (s : StackingState) (f : ℤ)
    (l : List ℕ) (b : ℕ) (due : ℚ)
    (hneg : f < 0) (hgen : -(s.«stacks».length : ℤ) ≤ f)
    (hl : s.«stacks».get? (f + s.«stacks».length).toNat = some l) (hne : l ≠ [])
    (hlast : l.getLast? = some b)
    (hh : p.handover_stack < s.«stacks».length)
    (hbl : (s.block_lookup.find? (fun e => e.1 == b)).isSome = true)
    (hmd : (s.move_durations.find? (fun e => e.1 == b)).isSome = true)
    (hdue : p.due_dates.get? b = some due)
    (hsd : (b, due) ∈ s.sorted_dues)
    (hnd : (s.sorted_dues.map Prod.fst).Nodup) :
    ∃ s2, apply_relocation p s f (p.handover_stack : ℤ) false = .ok (s2, none) ∧
      s2.«stacks» = s.«stacks».set (f + s.«stacks».length).toNat l.dropLast ∧
      dget s2.block_lookup b = none ∧
      dget s2.move_durations b = none ∧
      (∀ x, (b, x) ∉ s2.sorted_dues) ∧
      s2.handover_ready_time = s2.current_time + p.handover_time := by
  have hidx : pyIdx s.«stacks».length f = some (f + (s.«stacks».length : ℤ)).toNat := by
    unfold pyIdx
    rw [if_neg, if_pos ⟨hgen, hneg⟩]
    intro hc
    exact absurd hneg (not_lt.mpr hc.1)
  have hpg : pyGet s.«stacks» f = .ok l := by
    simp only [pyGet, hidx, hl]
  have hlh := List.get?_eq_get hh
  have hpgh : pyGet s.«stacks» (p.handover_stack : ℤ) =
      .ok (s.«stacks».get ⟨p.handover_stack, hh⟩) := by
    unfold pyGet pyIdx
    have h0 : (0 : ℤ) ≤ (p.handover_stack : ℤ) := Int.natCast_nonneg _
    have h1 : (p.handover_stack : ℤ) < (s.«stacks».length : ℤ) := by exact_mod_cast hh
    rw [if_pos ⟨h0, h1⟩]
    simp only [Int.toNat_natCast, hlh]
  obtain ⟨T, hT⟩ : ∃ T, determine_time p s f (p.handover_stack : ℤ) = .ok T := by
    simp only [determine_time, hpg, hpgh]
    exact ⟨_, rfl⟩
  have hgetD : s.«stacks».getD (f + (s.«stacks».length : ℤ)).toNat [] = l := by
    rw [List.getD_eq_getD_get?, hl]
    rfl
  refine ⟨{ s with
      «stacks» := s.«stacks».set (f + (s.«stacks».length : ℤ)).toNat l.dropLast,
      current_time := T,
      handover_ready_time := T + p.handover_time,
      overdue_sqr := s.overdue_sqr + weigh_if_positive (T - due),
      block_lookup := s.block_lookup.filter (fun e => !(e.1 == b)),
      move_durations := s.move_durations.filter (fun e => !(e.1 == b)),
      sorted_dues := s.sorted_dues.erase (b, due) }, ?_, rfl, ?_, ?_, ?_, rfl⟩
  · simp only [apply_relocation, hpg]
    rw [if_neg hne]
    simp only [if_true]
    simp only [relocCore, hT, hidx, hgetD, hlast, if_true]
    simp only [pyGetNat, hdue, dpop, hbl, hmd, sremove, hsd, if_true]
  · exact dget_filter_self s.block_lookup b
  · exact dget_filter_self s.move_durations b
  · intro x
    exact key_not_mem_erase s.sorted_dues b due x hnd hsd

/-- C10 witness: on the scenario problem's initial state, from-index -2 wraps
to stack 1 and block 0 is delivered. -/
theorem c10_negative_index_delivery_witness :
    ∃ s2, apply_relocation exP (initState exP exP.initial_stacks 0) (-2)
        ((exP.handover_stack : ℤ)) false = .ok (s2, none) ∧
      s2.«stacks» = (initState exP exP.initial_stacks 0).«stacks».set
        ((-2 : ℤ) + ((initState exP exP.initial_stacks 0).«stacks».length : ℤ)).toNat
        ([0] : List ℕ).dropLast ∧
      dget s2.block_lookup 0 = none ∧
      dget s2.move_durations 0 = none ∧
      (∀ x, ((0 : ℕ), x) ∉ s2.sorted_dues) ∧
      s2.handover_ready_time = s2.current_time + exP.handover_time :=
  c10_negative_index_delivery exP (initState exP exP.initial_stacks 0) (-2) [0] 0 0
    (by decide) (by decide) (by decide) (by decide) (by decide) (by decide)
    (by decide) (by decide) (by decide) (by decide) (by decide)

/-- With pairwise-distinct keys, a dict lookup finds exactly the member
pairs. -/
theorem dget_eq_iff_mem {α : Type} (l : List (ℕ × α)) (hnd : (l.map Prod.fst).Nodup)
    (k : ℕ) (v : α) : dget l k = some v ↔ (k, v) ∈ l := by
  constructor
  · intro h
    unfold dget at h
    cases hf : l.find? (fun e => e.1 == k) with
    | none => rw [hf] at h; cases h
    | some e =>
      rw [hf] at h
      have hek : e.1 = k := by
        have := List.find?_some hf
        simpa using this
      have hmem := List.mem_of_find?_eq_some hf
      have hv : e.2 = v := by simpa using h
      have hekv : e = (k, v) := by
        cases e
        simp_all
      rw [hekv] at hmem
      exact hmem
  · intro h
    have hsome : (l.find? (fun e => e.1 == k)).isSome := by
      rw [List.find?_isSome]
      exact ⟨(k, v), h, by simp⟩
    cases hf : l.find? (fun e => e.1 == k) with
    | none => rw [hf] at hsome; cases hsome
    | some e =>
      have hek : e.1 = k := by
        have := List.find?_some hf
        simpa using this
      have hmem := List.mem_of_find?_eq_some hf
      have hekv : e = (k, v) := nodup_keys_pair_eq l hnd e (k, v) hmem h hek
      unfold dget
      rw [hf, hekv]
      rfl

/-- Replacing the entry of key `k` in place does not affect the search for a
different key `k2`. -/
theorem find_key_map_dset {α : Type} (d : List (ℕ × α)) (k k2 : ℕ) (v : α) (hne : k2 ≠ k) :
    (d.map (fun e => if e.1 == k then (k, v) else e)).find? (fun e => e.1 == k2) =
    d.find? (fun e => e.1 == k2) := by
  induction d with
  | nil => rfl
  | cons e t ih =>
    rw [List.map_cons]
    by_cases hek : (e.1 == k) = true
    · rw [if_pos hek]
      have hek2 : e.1 = k := by simpa using hek
      have h2 : (((k, v) : ℕ × α).1 == k2) = false := by simp [Ne.symm hne]
      have h3 : (e.1 == k2) = false := by simp [hek2, Ne.symm hne]
      simp only [List.find?_cons, h2, h3]
      exact ih
    · rw [if_neg hek]
      by_cases hk2 : (e.1 == k2) = true
      · simp only [List.find?_cons, hk2]
      · have hb : (e.1 == k2) = false := by simpa using hk2
        simp only [List.find?_cons, hb]
        exact ih

/-- Setting a key and reading it back. -/
theorem dget_dset_self {α : Type} (d : List (ℕ × α)) (k : ℕ) (v : α) :
    dget (dset d k v) k = some v := by
  unfold dset
  by_cases hs : (d.find? (fun e => e.1 == k)).isSome = true
  · rw [if_pos hs]
    unfold dget
    induction d with
    | nil => simp at hs
    | cons e t ih =>
      rw [List.map_cons]
      by_cases hek : (e.1 == k) = true
      · rw [if_pos hek]
        have hkk : (((k, v) : ℕ × α).1 == k) = true := by simp
        simp only [List.find?_cons, hkk]
        rfl
      · rw [if_neg hek]
        have hb : (e.1 == k) = false := by simpa using hek
        have hgb : (((if (e.1 == k) = true then (k, v) else e) : ℕ × α).1 == k) = false := by
          rw [if_neg hek]
          exact hb
        simp only [List.find?_cons, hgb, hb]
        apply ih
        simp only [List.find?_cons, hb] at hs
        exact hs
  · rw [if_neg hs]
    unfold dget
    rw [List.find?_append]
    have hnone : d.find? (fun e => e.1 == k) = none := by
      cases hf : d.find? (fun e => e.1 == k) with
      | none => rfl
      | some e => rw [hf] at hs; simp at hs
    rw [hnone]
    have hkk : (((k, v) : ℕ × α).1 == k) = true := by simp
    simp only [List.find?_cons, hkk]
    rfl

/-- Setting a key leaves other keys unchanged. -/
theorem dget_dset_ne {α : Type} (d : List (ℕ × α)) (k k2 : ℕ) (v : α) (hne : k2 ≠ k) :
    dget (dset d k v) k2 = dget d k2 := by
  unfold dset
  by_cases hs : (d.find? (fun e => e.1 == k)).isSome = true
  · rw [if_pos hs]
    unfold dget
    rw [find_key_map_dset d k k2 v hne]
  · rw [if_neg hs]
    unfold dget
    rw [List.find?_append]
    have hone : ([((k, v) : ℕ × α)].find? (fun e => e.1 == k2)) = none := by
      have hb : (((k, v) : ℕ × α).1 == k2) = false := by simp [Ne.symm hne]
      simp only [List.find?_cons, hb]
      rfl
    rw [hone]
    cases d.find? (fun e => e.1 == k2) <;> rfl

/-- Popping a key leaves other keys unchanged. -/
theorem dget_filter_ne {α : Type} (d : List (ℕ × α)) (k k2 : ℕ) (hne : k2 ≠ k) :
    dget (d.filter (fun e => !(e.1 == k))) k2 = dget d k2 := by
  unfold dget
  induction d with
  | nil => rfl
  | cons e t ih =>
    by_cases hek : (e.1 == k) = true
    · have hek2 : e.1 = k := by simpa using hek
      have hf1 : (!(e.1 == k)) = false := by simp [hek]
      have h3 : (e.1 == k2) = false := by simp [hek2, Ne.symm hne]
      simp only [List.filter_cons, hf1, if_false, List.find?_cons, h3]
      exact ih
    · have hf1 : (!(e.1 == k)) = true := by simpa using hek
      simp only [List.filter_cons, hf1, if_true]
      by_cases hk2 : (e.1 == k2) = true
      · simp only [List.find?_cons, hk2]
      · have hb : (e.1 == k2) = false := by simpa using hk2
        simp only [List.find?_cons, hb]
        exact ih

/-- Reading a cell of a stack array after replacing one stack. -/
theorem cellAt_set (sks : List (List ℕ)) (i : ℕ) (L : List ℕ) (si h : ℕ)
    (hi : i < sks.length) :
    cellAt (sks.set i L) si h = if si = i then L.get? h else cellAt sks si h := by
  unfold cellAt
  by_cases hsi : si = i
  · subst hsi
    rw [if_pos rfl, List.get?_set_eq]
    have hsome := List.get?_eq_get hi
    rw [hsome]
    rfl
  · rw [if_neg hsi, List.get?_set_ne _ _ (fun hc => hsi hc.symm)]

/-- get? of dropLast: the same list truncated at its last position. -/
theorem get?_dropLast_eq {α : Type} (l : List α) (h : ℕ) :
    l.dropLast.get? h = if h < l.length - 1 then l.get? h else none := by
  rw [List.dropLast_eq_take]
  by_cases hlt : h < l.length - 1
  · rw [if_pos hlt]
    exact List.get?_take hlt
  · rw [if_neg hlt]
    apply List.get?_eq_none.mpr
    rw [List.length_take]
    omega

/-- get? of appending one element. -/
theorem get?_concat_eq {α : Type} (l : List α) (a : α) (h : ℕ) :
    (l ++ [a]).get? h =
      if h < l.length then l.get? h else if h = l.length then some a else none := by
  by_cases h1 : h < l.length
  · rw [if_pos h1, List.get?_append h1]
  · rw [if_neg h1]
    by_cases h2 : h = l.length
    · subst h2
      rw [if_pos rfl, List.get?_concat_length]
    · rw [if_neg h2]
      apply List.get?_eq_none.mpr
      rw [List.length_append, List.length_singleton]
      omega

/-- A block read from a cell is among the flattened blocks. -/
theorem mem_flatten_of_cellAt (sks : List (List ℕ)) (si h b : ℕ)
    (hc : cellAt sks si h = some b) : b ∈ sks.flatten := by
  unfold cellAt at hc
  cases hst : sks.get? si with
  | none => rw [hst] at hc; cases hc
  | some st =>
    rw [hst] at hc
    exact List.mem_flatten.mpr ⟨st, List.get?_mem hst, List.get?_mem hc⟩

/-- Replacing stack `i` exchanges its contents in the flattened multiset. -/
theorem flatten_set_msetEq (sks : List (List ℕ)) : ∀ (i : ℕ) (L : List ℕ),
    i < sks.length →
    (((sks.set i L).flatten : List ℕ) : Multiset ℕ) + ((sks.getD i [] : List ℕ) : Multiset ℕ) =
    ((sks.flatten : List ℕ) : Multiset ℕ) + (L : Multiset ℕ) := by
  induction sks with
  | nil => intro i L hi; exact absurd hi (Nat.not_lt_zero i)
  | cons st rest ih =>
    intro i L hi
    cases i with
    | zero =>
      simp only [List.set_cons_zero, List.flatten_cons, List.getD_cons_zero]
      rw [← Multiset.coe_add, ← Multiset.coe_add]
      abel
    | succ i2 =>
      simp only [List.set_cons_succ, List.flatten_cons, List.getD_cons_succ]
      rw [← Multiset.coe_add, ← Multiset.coe_add]
      rw [add_assoc, add_assoc, ih i2 L (Nat.lt_of_succ_lt_succ hi)]

/-- The keys of the triples of one stack are the stack itself. -/
theorem stackTriples_keys (si : ℕ) : ∀ (k : ℕ) (st : List ℕ),
    (stackTriples si k st).map (fun e => e.1) = st := by
  intro k st
  induction st generalizing k with
  | nil => rfl
  | cons b bs ih => simp [stackTriples, ih]

/-- The keys of all triples are the flattened stacks. -/
theorem triplesAux_keys : ∀ (k : ℕ) (sks : List (List ℕ)),
    (triplesAux k sks).map (fun e => e.1) = sks.flatten := by
  intro k sks
  induction sks generalizing k with
  | nil => rfl
  | cons st rest ih =>
    simp [triplesAux, List.map_append, stackTriples_keys, ih, List.flatten_cons]

theorem triples_keys (sks : List (List ℕ)) :
    (triples sks).map (fun e => e.1) = sks.flatten := triplesAux_keys 0 sks

/-- Membership in the triples of one stack. -/
theorem stackTriples_mem (si : ℕ) : ∀ (k : ℕ) (st : List ℕ) (b s2 h : ℕ),
    ((b, s2, h) ∈ stackTriples si k st ↔ s2 = si ∧ ∃ j, h = k + j ∧ st.get? j = some b) := by
  intro k st
  induction st generalizing k with
  | nil =>
    intro b s2 h
    simp [stackTriples]
  | cons c cs ih =>
    intro b s2 h
    simp only [stackTriples, List.mem_cons]
    constructor
    · rintro (heq | hmem)
      · have hb : b = c := congrArg Prod.fst heq
        have hs : s2 = si := congrArg (fun e => e.2.1) heq
        have hh : h = k := congrArg (fun e => e.2.2) heq
        exact ⟨hs, 0, by omega, by rw [hb]; rfl⟩
      · obtain ⟨hs2, j, hh, hg⟩ := (ih (k + 1) b s2 h).mp hmem
        exact ⟨hs2, j + 1, by omega, hg⟩
    · rintro ⟨hs2, j, hh, hg⟩
      cases j with
      | zero =>
        left
        have hb : some c = some b := hg
        have hb2 : b = c := by injection hb; simp_all
        rw [hb2, hs2, hh]
        rfl
      | succ j2 =>
        right
        exact (ih (k + 1) b s2 h).mpr ⟨hs2, j2, by omega, hg⟩

/-- Membership in the triples of a stack array. -/
theorem triplesAux_mem : ∀ (k : ℕ) (sks : List (List ℕ)) (b si h : ℕ),
    ((b, si, h) ∈ triplesAux k sks ↔ ∃ j, si = k + j ∧ cellAt sks j h = some b) := by
  intro k sks
  induction sks generalizing k with
  | nil =>
    intro b si h
    simp [triplesAux, cellAt]
  | cons st rest ih =>
    intro b si h
    simp only [triplesAux, List.mem_append]
    constructor
    · rintro (hmem | hmem)
      · obtain ⟨hsi, j, hh, hg⟩ := (stackTriples_mem k 0 st b si h).mp hmem
        refine ⟨0, by omega, ?_⟩
        unfold cellAt
        have hj : h = j := by omega
        rw [hj]
        exact hg
      · obtain ⟨j, hsi, hc⟩ := (ih (k + 1) b si h).mp hmem
        exact ⟨j + 1, by omega, hc⟩
    · rintro ⟨j, hsi, hc⟩
      cases j with
      | zero =>
        left
        refine (stackTriples_mem k 0 st b si h).mpr ⟨by omega, h, by omega, ?_⟩
        exact hc
      | succ j2 =>
        right
        exact (ih (k + 1) b si h).mpr ⟨j2, by omega, hc⟩

theorem triples_mem (sks : List (List ℕ)) (b si h : ℕ) :
    (b, si, h) ∈ triples sks ↔ cellAt sks si h = some b := by
  unfold triples
  rw [triplesAux_mem]
  constructor
  · rintro ⟨j, hsi, hc⟩
    have : si = j := by omega
    rwa [this]
  · intro hc
    exact ⟨si, by omega, hc⟩

/-- Folding dict insertion over fresh, pairwise-distinct keys builds exactly
the association list of the inserted entries. -/
theorem foldl_dset_fresh {α β : Type} (g : β → ℕ) (v : β → α) :
    ∀ (l : List β) (acc : List (ℕ × α)),
    (∀ e ∈ l, ∀ e2 ∈ acc, g e ≠ e2.1) → (l.map g).Nodup →
    l.foldl (fun d e => dset d (g e) (v e)) acc = acc ++ l.map (fun e => (g e, v e)) := by
  intro l
  induction l with
  | nil =>
    intro acc _ _
    simp
  | cons e t ih =>
    intro acc hfresh hnd
    rw [List.foldl_cons]
    have hnotin : ¬ ((acc.find? (fun e2 => e2.1 == g e)).isSome = true) := by
      intro hc
      rw [List.find?_isSome] at hc
      obtain ⟨e2, he2, hpred⟩ := hc
      have heq2 : e2.1 = g e := by simpa using hpred
      exact hfresh e (List.mem_cons_self e t) e2 he2 heq2.symm
    have hset : dset acc (g e) (v e) = acc ++ [(g e, v e)] := by
      unfold dset
      rw [if_neg ?hc]
      case hc =>
        intro hc
        apply hnotin
        rw [List.find?_isSome] at hc ⊢
        obtain ⟨e2, he2, hpred⟩ := hc
        refine ⟨e2, he2, ?_⟩
        have : e2.1 = g e := by simpa using hpred
        simp [this]
    rw [hset]
    rw [List.map_cons, List.nodup_cons] at hnd
    have hfr : ∀ e3 ∈ t, ∀ e2 ∈ acc ++ [(g e, v e)], g e3 ≠ e2.1 := by
      intro e3 he3 e2 he2
      rcases List.mem_append.mp he2 with h1 | h1
      · exact hfresh e3 (List.mem_cons_of_mem _ he3) e2 h1
      · have he2v : e2 = (g e, v e) := by simpa using h1
        rw [he2v]
        intro hc
        have hc2 : g e3 = g e := hc
        exact hnd.1 (hc2 ▸ List.mem_map_of_mem g he3)
    rw [ih (acc ++ [(g e, v e)]) hfr hnd.2]
    simp

/-- The initial block-location map is exactly the triples list. -/
theorem initState_block_lookup (p : Problem) (sks : List (List ℕ)) (t0 : ℚ)
    (hnd : sks.flatten.Nodup) :
    (initState p sks t0).block_lookup = triples sks := by
  show (triples sks).foldl (fun d e => dset d e.1 e.2) [] = triples sks
  have h := foldl_dset_fresh (fun (e : ℕ × ℕ × ℕ) => e.1) (fun e => e.2) (triples sks) []
    (by intro e _ e2 he2; cases he2) (by rw [triples_keys]; exact hnd)
  rw [h]
  simp

theorem mkSortedDues_perm (dues : List ℚ) : (mkSortedDues dues).Perm (enumDues dues) :=
  List.perm_insertionSort dueOrd (enumDues dues)

theorem enumDues_mem (dues : List ℚ) (b : ℕ) (d : ℚ) :
    (b, d) ∈ enumDues dues ↔ dues.get? b = some d := by
  unfold enumDues
  rw [List.mem_map]
  constructor
  · rintro ⟨x, hx, heq⟩
    have hxb : x = b := congrArg Prod.fst heq
    have hd : dues.getD x 0 = d := congrArg Prod.snd heq
    subst hxb
    have hxl : x < dues.length := List.mem_range.mp hx
    rw [List.get?_eq_get hxl]
    rw [List.getD_eq_get dues 0 hxl] at hd
    rw [hd]
  · intro hg
    obtain ⟨hb, heq⟩ := List.get?_eq_some.mp hg
    refine ⟨b, List.mem_range.mpr hb, ?_⟩
    rw [List.getD_eq_get dues 0 hb, heq]

theorem mkSortedDues_mem (dues : List ℚ) (b : ℕ) (d : ℚ) :
    (b, d) ∈ mkSortedDues dues ↔ dues.get? b = some d := by
  rw [(mkSortedDues_perm dues).mem_iff, enumDues_mem]

theorem mkSortedDues_keysNodup (dues : List ℚ) :
    ((mkSortedDues dues).map Prod.fst).Nodup := by
  have hperm := (mkSortedDues_perm dues).map Prod.fst
  rw [hperm.nodup_iff]
  unfold enumDues
  rw [List.map_map]
  have hid : (Prod.fst ∘ fun b => ((b, dues.getD b 0) : ℕ × ℚ)) = id := rfl
  rw [hid, List.map_id]
  exact List.nodup_range _

/-- The initial state of a well-formed problem satisfies the conservation
invariant. -/
theorem StateInv_init (p : Problem) (hw : Wf p) :
    StateInv p (initState p p.initial_stacks 0) := by
  have hnd : p.initial_stacks.flatten.Nodup := by
    have := hw.nodup_iff.mpr (List.nodup_range p.due_dates.length)
    exact this
  refine ⟨hnd, ?_, ?_, ?_, ?_⟩
  · intro b si h
    rw [initState_block_lookup p _ 0 hnd]
    have hknd : ((triples p.initial_stacks).map Prod.fst).Nodup := by
      have := triples_keys p.initial_stacks
      have heq : (triples p.initial_stacks).map Prod.fst =
          (triples p.initial_stacks).map (fun e => e.1) := rfl
      rw [heq, this]
      exact hnd
    rw [dget_eq_iff_mem _ hknd]
    exact triples_mem p.initial_stacks b si h
  · intro b
    show (∃ d, (b, d) ∈ mkSortedDues p.due_dates) ↔ b ∈ p.initial_stacks.flatten
    constructor
    · rintro ⟨d, hd⟩
      rw [mkSortedDues_mem] at hd
      obtain ⟨hb, _⟩ := List.get?_eq_some.mp hd
      exact hw.mem_iff.mpr (List.mem_range.mpr hb)
    · intro hb
      have hbn : b < p.due_dates.length := List.mem_range.mp (hw.mem_iff.mp hb)
      exact ⟨_, (mkSortedDues_mem _ _ _).mpr (List.get?_eq_get hbn)⟩
  · intro b d hd
    have hd2 : (b, d) ∈ mkSortedDues p.due_dates := hd
    rw [mkSortedDues_mem] at hd2
    exact hd2
  · exact mkSortedDues_keysNodup p.due_dates

/-- Popping the top of stack `fi` does not change the cells of other blocks. -/
theorem cellAt_pop_ne (sks : List (List ℕ)) (fi : ℕ) (l : List ℕ) (block b2 si h : ℕ)
    (hfi : fi < sks.length) (hlget : sks.get? fi = some l)
    (hsplit : l.dropLast ++ [block] = l) (hbne : b2 ≠ block) :
    cellAt (sks.set fi l.dropLast) si h = some b2 ↔ cellAt sks si h = some b2 := by
  rw [cellAt_set sks fi l.dropLast si h hfi]
  by_cases hsi : si = fi
  · subst hsi
    rw [if_pos rfl]
    unfold cellAt
    rw [hlget]
    show l.dropLast.get? h = some b2 ↔ l.get? h = some b2
    rw [get?_dropLast_eq]
    by_cases hlt : h < l.length - 1
    · rw [if_pos hlt]
    · rw [if_neg hlt]
      constructor
      · intro hc
        cases hc
      · intro hc
        obtain ⟨hhl, _⟩ := List.get?_eq_some.mp hc
        have hh : h = l.length - 1 := by omega
        have hlastc : l.get? (l.length - 1) = some block := by
          conv_lhs => rw [← hsplit]
          rw [get?_concat_eq, List.length_append, List.length_singleton,
            List.length_dropLast]
          have hl1 : 0 < l.length := List.length_pos.mpr (by
            intro hcon
            rw [hcon] at hsplit
            exact absurd hsplit (by simp))
          rw [if_neg (by omega), if_pos (by omega)]
        rw [hh, hlastc] at hc
        injection hc with hcc
        exact absurd hcc.symm hbne
  · rw [if_neg hsi]

/-- After popping the top of stack `fi`, the popped block is in no cell
(given that it occupied only the top of `fi` before). -/
theorem cellAt_pop_not_block (sks : List (List ℕ)) (fi : ℕ) (l : List ℕ) (block si h : ℕ)
    (hfi : fi < sks.length) (hlget : sks.get? fi = some l)
    (hbpos : ∀ si2 h2, cellAt sks si2 h2 = some block → si2 = fi ∧ h2 = l.length - 1) :
    cellAt (sks.set fi l.dropLast) si h ≠ some block := by
  rw [cellAt_set sks fi l.dropLast si h hfi]
  by_cases hsi : si = fi
  · subst hsi
    rw [if_pos rfl]
    intro hc
    rw [get?_dropLast_eq] at hc
    by_cases hlt : h < l.length - 1
    · rw [if_pos hlt] at hc
      have hcell : cellAt sks si h = some block := by
        unfold cellAt
        rw [hlget]
        exact hc
      have := (hbpos si h hcell).2
      omega
    · rw [if_neg hlt] at hc
      cases hc
  · rw [if_neg hsi]
    intro hc
    exact hsi (hbpos si h hc).1

/-- Pushing a block on stack `ti` does not change the cells of other blocks. -/
theorem cellAt_push_ne (sks1 : List (List ℕ)) (ti : ℕ) (tl : List ℕ) (block b2 si h : ℕ)
    (hti : ti < sks1.length) (htlget : sks1.get? ti = some tl) (hbne : b2 ≠ block) :
    cellAt (sks1.set ti (tl ++ [block])) si h = some b2 ↔ cellAt sks1 si h = some b2 := by
  rw [cellAt_set sks1 ti _ si h hti]
  by_cases hsi : si = ti
  · subst hsi
    rw [if_pos rfl]
    unfold cellAt
    rw [htlget]
    show (tl ++ [block]).get? h = some b2 ↔ tl.get? h = some b2
    rw [get?_concat_eq]
    by_cases h1 : h < tl.length
    · rw [if_pos h1]
    · rw [if_neg h1]
      by_cases h2 : h = tl.length
      · rw [if_pos h2]
        constructor
        · intro hc
          injection hc with hcc
          exact absurd hcc hbne.symm
        · intro hc
          obtain ⟨hhl, _⟩ := List.get?_eq_some.mp hc
          omega
      · rw [if_neg h2]
        constructor
        · intro hc
          cases hc
        · intro hc
          obtain ⟨hhl, _⟩ := List.get?_eq_some.mp hc
          omega
  · rw [if_neg hsi]

/-- After pushing a block absent from all cells onto stack `ti`, its only
cell is the new top of `ti`. -/
theorem cellAt_push_block (sks1 : List (List ℕ)) (ti : ℕ) (tl : List ℕ) (block si h : ℕ)
    (hti : ti < sks1.length) (htlget : sks1.get? ti = some tl)
    (hnotin : ∀ si2 h2, cellAt sks1 si2 h2 ≠ some block) :
    cellAt (sks1.set ti (tl ++ [block])) si h = some block ↔ (si = ti ∧ h = tl.length) := by
  rw [cellAt_set sks1 ti _ si h hti]
  by_cases hsi : si = ti
  · subst hsi
    rw [if_pos rfl]
    constructor
    · intro hc
      rw [get?_concat_eq] at hc
      by_cases h1 : h < tl.length
      · rw [if_pos h1] at hc
        exfalso
        apply hnotin si h
        unfold cellAt
        rw [htlget]
        exact hc
      · rw [if_neg h1] at hc
        by_cases h2 : h = tl.length
        · exact ⟨rfl, h2⟩
        · rw [if_neg h2] at hc
          cases hc
    · rintro ⟨_, hh⟩
      subst hh
      rw [get?_concat_eq, if_neg (by omega), if_pos rfl]
  · rw [if_neg hsi]
    constructor
    · intro hc
      exact absurd hc (hnotin si h)
    · rintro ⟨h1, _⟩
      exact absurd h1 hsi

/-- A Python index that resolves is within bounds. -/
theorem pyIdx_lt (n : ℕ) (i : ℤ) (k : ℕ) (h : pyIdx n i = some k) : k < n := by
  unfold pyIdx at h
  split_ifs at h with h1 h2
  · injection h with he
    omega
  · injection h with he
    omega

/-- The conservation invariant survives the mutation core of
apply_relocation. -/
theorem StateInv_relocCore (p : Problem) (s : StackingState) (f t : ℤ)
    (s2 : StackingState) (r : Option Bool) (hinv : StateInv p s)
    (hcore : relocCore p s f t = .ok (s2, r)) : StateInv p s2 := by
  obtain ⟨hnd, hlk, hdues, hpair, hknd⟩ := hinv
  unfold relocCore at hcore
  cases hdt : determine_time p s f t with
  | error e => simp only [hdt] at hcore; exact Except.noConfusion hcore
  | ok T =>
  simp only [hdt] at hcore
  cases hidx : pyIdx s.«stacks».length f with
  | none => simp only [hidx] at hcore; exact Except.noConfusion hcore
  | some fi =>
  simp only [hidx] at hcore
  cases hlastq : (s.«stacks».getD fi []).getLast? with
  | none => simp only [hlastq] at hcore; exact Except.noConfusion hcore
  | some block =>
  simp only [hlastq] at hcore
  set l := s.«stacks».getD fi [] with hlds
  have hfi : fi < s.«stacks».length := pyIdx_lt _ _ _ hidx
  have hlget : s.«stacks».get? fi = some l := by
    rw [hlds, List.getD_eq_getD_get?, List.get?_eq_get hfi]
    rfl
  have hlne : l ≠ [] := by
    intro hc
    rw [hc] at hlastq
    cases hlastq
  have hlast2 : l.getLast hlne = block := by
    have hgl := List.getLast?_eq_getLast l hlne
    rw [hgl] at hlastq
    injection hlastq with he
  have hsplit : l.dropLast ++ [block] = l := by
    rw [← hlast2]
    exact List.dropLast_append_getLast hlne
  have hbcell : cellAt s.«stacks» fi (l.length - 1) = some block := by
    unfold cellAt
    rw [hlget]
    show l.get? (l.length - 1) = some block
    conv_lhs => rw [← hsplit]
    rw [get?_concat_eq, List.length_append, List.length_singleton, List.length_dropLast]
    have hl1 : 0 < l.length := List.length_pos.mpr hlne
    rw [if_neg (by omega), if_pos (by omega)]
  have hlkblock : dget s.block_lookup block = some (fi, l.length - 1) :=
    (hlk block fi _).mpr hbcell
  have hbpos : ∀ si2 h2, cellAt s.«stacks» si2 h2 = some block →
      si2 = fi ∧ h2 = l.length - 1 := by
    intro si2 h2 hc
    have h1 := (hlk block si2 h2).mpr hc
    rw [hlkblock] at h1
    injection h1 with h2e
    exact ⟨(congrArg Prod.fst h2e).symm, (congrArg Prod.snd h2e).symm⟩
  have hbflat : block ∈ s.«stacks».flatten := mem_flatten_of_cellAt _ _ _ _ hbcell
  have hcoel : (l : Multiset ℕ) = (l.dropLast : Multiset ℕ) + {block} := by
    conv_lhs => rw [← hsplit]
    rw [← Multiset.coe_singleton block, ← Multiset.coe_add]
  have hms1b : (((s.«stacks».set fi l.dropLast).flatten : List ℕ) : Multiset ℕ) + {block} =
      ((s.«stacks».flatten : List ℕ) : Multiset ℕ) := by
    have h1 := flatten_set_msetEq s.«stacks» fi l.dropLast hfi
    rw [← hlds, hcoel] at h1
    apply add_right_cancel (b := (l.dropLast : Multiset ℕ))
    calc (((s.«stacks».set fi l.dropLast).flatten : List ℕ) : Multiset ℕ) + {block} +
          (l.dropLast : Multiset ℕ)
        = (((s.«stacks».set fi l.dropLast).flatten : List ℕ) : Multiset ℕ) +
          ((l.dropLast : Multiset ℕ) + {block}) := by abel
      _ = ((s.«stacks».flatten : List ℕ) : Multiset ℕ) + (l.dropLast : Multiset ℕ) := h1
  have hnotin1 : ∀ si2 h2, cellAt (s.«stacks».set fi l.dropLast) si2 h2 ≠ some block :=
    fun si2 h2 => cellAt_pop_not_block s.«stacks» fi l block si2 h2 hfi hlget hbpos
  have hflatnd : Multiset.Nodup ((s.«stacks».flatten : List ℕ) : Multiset ℕ) :=
    Multiset.coe_nodup.mpr hnd
  have hflat1nd : (s.«stacks».set fi l.dropLast).flatten.Nodup := by
    apply Multiset.coe_nodup.mp
    apply Multiset.nodup_of_le ?hle hflatnd
    case hle =>
      rw [← hms1b]
      exact Multiset.le_add_right _ _
  have hb_not_flat1 : block ∉ (s.«stacks».set fi l.dropLast).flatten := by
    intro hc
    have hcnt := congrArg (Multiset.count block) hms1b
    rw [Multiset.count_add, Multiset.count_singleton_self] at hcnt
    have h1 : 1 ≤ Multiset.count block
        (((s.«stacks».set fi l.dropLast).flatten : List ℕ) : Multiset ℕ) :=
      Multiset.one_le_count_iff_mem.mpr (Multiset.mem_coe.mpr hc)
    have h2 : Multiset.count block ((s.«stacks».flatten : List ℕ) : Multiset ℕ) ≤ 1 :=
      (Multiset.nodup_iff_count_le_one.mp hflatnd) block
    omega
  have hmem1 : ∀ b2, b2 ≠ block →
      (b2 ∈ (s.«stacks».set fi l.dropLast).flatten ↔ b2 ∈ s.«stacks».flatten) := by
    intro b2 hbne
    have hcnt := congrArg (Multiset.count b2) hms1b
    rw [Multiset.count_add, Multiset.count_singleton, if_neg hbne] at hcnt
    constructor
    · intro hm
      have h1 := Multiset.count_pos.mpr (Multiset.mem_coe.mpr hm)
      exact Multiset.mem_coe.mp (Multiset.count_pos.mp (by omega))
    · intro hm
      have h1 := Multiset.count_pos.mpr (Multiset.mem_coe.mpr hm)
      exact Multiset.mem_coe.mp (Multiset.count_pos.mp (by omega))
  by_cases hto : t = (p.handover_stack : ℤ)
  · rw [if_pos hto] at hcore
    cases hdueg : pyGetNat p.due_dates block with
    | error e => simp only [hdueg] at hcore; exact Except.noConfusion hcore
    | ok due =>
    simp only [hdueg] at hcore
    cases hdp1 : dpop s.block_lookup block with
    | error e => simp only [hdp1] at hcore; exact Except.noConfusion hcore
    | ok bl2 =>
    simp only [hdp1] at hcore
    cases hdp2 : dpop s.move_durations block with
    | error e => simp only [hdp2] at hcore; exact Except.noConfusion hcore
    | ok md2 =>
    simp only [hdp2] at hcore
    cases hsr : sremove s.sorted_dues (block, due) with
    | error e => simp only [hsr] at hcore; exact Except.noConfusion hcore
    | ok sd2 =>
    simp only [hsr] at hcore
    have hbl2 : bl2 = s.block_lookup.filter (fun e => !(e.1 == block)) := by
      unfold dpop at hdp1
      split_ifs at hdp1 with hk
      · injection hdp1 with he
        exact he.symm
    have hsrmem : (block, due) ∈ s.sorted_dues := by
      unfold sremove at hsr
      split_ifs at hsr with hk
      · exact hk
    have hsd2 : sd2 = s.sorted_dues.erase (block, due) := by
      unfold sremove at hsr
      split_ifs at hsr with hk
      · injection hsr with he
        exact he.symm
    injection hcore with hp
    have hs2 : s2 = ({ s with
        «stacks» := s.«stacks».set fi l.dropLast,
        current_time := T,
        handover_ready_time := T + p.handover_time,
        overdue_sqr := s.overdue_sqr + weigh_if_positive (T - due),
        block_lookup := bl2,
        move_durations := md2,
        sorted_dues := sd2 } : StackingState) := (congrArg Prod.fst hp).symm
    subst hs2
    subst hbl2
    subst hsd2
    refine ⟨hflat1nd, ?_, ?_, ?_, ?_⟩
    · intro b2 si h
      by_cases hb2 : b2 = block
      · subst hb2
        show dget (s.block_lookup.filter (fun e => !(e.1 == b2))) b2 = some (si, h) ↔ _
        rw [dget_filter_self]
        constructor
        · intro hc
          cases hc
        · intro hc
          exact absurd hc (hnotin1 si h)
      · show dget (s.block_lookup.filter (fun e => !(e.1 == block))) b2 = some (si, h) ↔ _
        rw [dget_filter_ne s.block_lookup block b2 hb2, hlk b2 si h]
        exact (cellAt_pop_ne s.«stacks» fi l block b2 si h hfi hlget hsplit hb2).symm
    · intro b2
      show (∃ d, (b2, d) ∈ s.sorted_dues.erase (block, due)) ↔
        b2 ∈ allBlocks (s.«stacks».set fi l.dropLast)
      by_cases hb2 : b2 = block
      · subst hb2
        constructor
        · rintro ⟨d, hd⟩
          exact absurd hd (key_not_mem_erase s.sorted_dues b2 due d hknd hsrmem)
        · intro hc
          exact absurd hc hb_not_flat1
      · constructor
        · rintro ⟨d, hd⟩
          exact (hmem1 b2 hb2).mpr ((hdues b2).mp ⟨d, List.mem_of_mem_erase hd⟩)
        · intro hc
          obtain ⟨d, hd⟩ := (hdues b2).mpr ((hmem1 b2 hb2).mp hc)
          exact ⟨d, (List.mem_erase_of_ne
            (fun hc2 => hb2 (congrArg Prod.fst hc2))).mpr hd⟩
    · intro b2 d hd
      exact hpair b2 d (List.mem_of_mem_erase hd)
    · exact hknd.sublist ((List.erase_sublist _ _).map Prod.fst)
  · rw [if_neg hto] at hcore
    cases hti : pyIdx (s.«stacks».set fi l.dropLast).length t with
    | none => simp only [hti] at hcore; exact Except.noConfusion hcore
    | some ti =>
    simp only [hti] at hcore
    have htilen : ti < (s.«stacks».set fi l.dropLast).length := pyIdx_lt _ _ _ hti
    set tl := (s.«stacks».set fi l.dropLast).getD ti [] with htlds
    have htlget : (s.«stacks».set fi l.dropLast).get? ti = some tl := by
      rw [htlds, List.getD_eq_getD_get?, List.get?_eq_get htilen]
      rfl
    injection hcore with hp
    have hs2 : s2 = ({ s with
        «stacks» := (s.«stacks».set fi l.dropLast).set ti (tl ++ [block]),
        current_time := T,
        block_lookup := dset s.block_lookup block (ti, tl.length),
        move_durations := dset s.move_durations block
          (calc_remove_dur p ti tl.length) } : StackingState) := (congrArg Prod.fst hp).symm
    subst hs2
    have hms2 : ((((s.«stacks».set fi l.dropLast).set ti (tl ++ [block])).flatten : List ℕ) :
        Multiset ℕ) = ((s.«stacks».flatten : List ℕ) : Multiset ℕ) := by
      have h1 := flatten_set_msetEq (s.«stacks».set fi l.dropLast) ti (tl ++ [block]) htilen
      rw [← htlds] at h1
      have h2 : ((tl ++ [block] : List ℕ) : Multiset ℕ) = (tl : Multiset ℕ) + {block} := by
        rw [← Multiset.coe_singleton block, ← Multiset.coe_add]
      rw [h2] at h1
      apply add_right_cancel (b := (tl : Multiset ℕ))
      calc ((((s.«stacks».set fi l.dropLast).set ti (tl ++ [block])).flatten : List ℕ) :
            Multiset ℕ) + (tl : Multiset ℕ)
          = (((s.«stacks».set fi l.dropLast).flatten : List ℕ) : Multiset ℕ) +
            ((tl : Multiset ℕ) + {block}) := h1
        _ = ((((s.«stacks».set fi l.dropLast).flatten : List ℕ) : Multiset ℕ) + {block}) +
            (tl : Multiset ℕ) := by abel
        _ = ((s.«stacks».flatten : List ℕ) : Multiset ℕ) + (tl : Multiset ℕ) := by
            rw [hms1b]
    have hperm2 : (((s.«stacks».set fi l.dropLast).set ti (tl ++ [block])).flatten).Perm
        s.«stacks».flatten := Multiset.coe_eq_coe.mp hms2
    refine ⟨hperm2.nodup_iff.mpr hnd, ?_, ?_, hpair, hknd⟩
    · intro b2 si h
      by_cases hb2 : b2 = block
      · subst hb2
        show dget (dset s.block_lookup b2 (ti, tl.length)) b2 = some (si, h) ↔ _
        rw [dget_dset_self]
        rw [cellAt_push_block (s.«stacks».set fi l.dropLast) ti tl b2 si h htilen
          htlget hnotin1]
        constructor
        · intro hc
          injection hc with he
          exact ⟨(congrArg Prod.fst he).symm, (congrArg Prod.snd he).symm⟩
        · rintro ⟨h1, h2⟩
          rw [h1, h2]
      · show dget (dset s.block_lookup block (ti, tl.length)) b2 = some (si, h) ↔ _
        rw [dget_dset_ne s.block_lookup block b2 _ hb2, hlk b2 si h]
        rw [cellAt_push_ne (s.«stacks».set fi l.dropLast) ti tl block b2 si h htilen
          htlget hb2]
        exact (cellAt_pop_ne s.«stacks» fi l block b2 si h hfi hlget hsplit hb2).symm
    · intro b2
      show (∃ d, (b2, d) ∈ s.sorted_dues) ↔ _
      rw [hdues b2]
      exact hperm2.mem_iff.symm

/-- The conservation invariant survives apply_relocation (both modes): a
try-mode failure returns the unchanged state, and a success goes through the
mutation core. -/
theorem StateInv_apply_relocation (p : Problem) (s : StackingState) (f t : ℤ) (m : Bool)
    (s2 : StackingState) (r : Option Bool) (hinv : StateInv p s)
    (happ : apply_relocation p s f t m = .ok (s2, r)) : StateInv p s2 := by
  have hid : ∀ (hq : (Except.ok (s, some false) :
      Except Err (StackingState × Option Bool)) = .ok (s2, r)), StateInv p s2 := by
    intro hq
    injection hq with hp
    have hs : s = s2 := congrArg Prod.fst hp
    rw [← hs]
    exact hinv
  unfold apply_relocation at happ
  cases hpg : pyGet s.«stacks» f with
  | error e => simp only [hpg] at happ; exact Except.noConfusion happ
  | ok fromList =>
  simp only [hpg] at happ
  by_cases hfe : fromList = []
  · rw [if_pos hfe] at happ
    by_cases htm : m = true
    · rw [if_pos htm] at happ
      exact hid happ
    · rw [if_neg htm] at happ
      exact Except.noConfusion happ
  · rw [if_neg hfe] at happ
    by_cases hto : t = (p.handover_stack : ℤ)
    · rw [if_pos hto] at happ
      exact StateInv_relocCore p s f t s2 r hinv happ
    · rw [if_neg hto] at happ
      by_cases hrange : f < 0 ∨ t < 0 ∨ (s.«stacks».length : ℤ) ≤ f ∨
          (s.«stacks».length : ℤ) ≤ t
      · rw [if_pos hrange] at happ
        by_cases htm : m = true
        · rw [if_pos htm] at happ
          exact hid happ
        · rw [if_neg htm] at happ
          exact Except.noConfusion happ
      · rw [if_neg hrange] at happ
        cases hmh : pyGet p.max_height t with
        | error e => simp only [hmh] at happ; exact Except.noConfusion happ
        | ok mh =>
        simp only [hmh] at happ
        cases htg : pyGet s.«stacks» t with
        | error e => simp only [htg] at happ; exact Except.noConfusion happ
        | ok toList =>
        simp only [htg] at happ
        by_cases hov : mh < toList.length + 1
        · rw [if_pos hov] at happ
          by_cases htm : m = true
          · rw [if_pos htm] at happ
            exact hid happ
          · rw [if_neg htm] at happ
            exact Except.noConfusion happ
        · rw [if_neg hov] at happ
          exact StateInv_relocCore p s f t s2 r hinv happ

/-- Every reachable state of a well-formed problem satisfies the
conservation invariant. -/
theorem StateInv_reach (p : Problem) (s : StackingState) (hw : Wf p) (hr : Reach p s) :
    StateInv p s := by
  induction hr with
  | init => exact StateInv_init p hw
  | step hre happ ih => exact StateInv_apply_relocation p _ _ _ _ _ _ ih happ

/-- C5.  Block conservation in every state reachable from the empty solution
of a well-formed problem (initial stacks hold exactly the blocks indexing the
due-date list, each once): no block is duplicated or lost - the in-stack
blocks are pairwise distinct; the block-location map records a position
exactly when the block sits at that position (so a block is in exactly one
stack, at the recorded height, or appears in no stack at all, i.e. has been
delivered); the due-date index holds exactly the not-yet-delivered (in-stack)
blocks; every in-stack block has a due date; and is_feasible is true iff all
stacks are empty iff the due-date index is empty. -/
theorem c5_block_conservation (p : Problem) (s : StackingState) (hw : Wf p)
    (hr : Reach p s) :
    (allBlocks s.«stacks»).Nodup ∧
    (∀ b si h, dget s.block_lookup b = some (si, h) ↔ cellAt s.«stacks» si h = some b) ∧
    (∀ b, (∃ d, (b, d) ∈ s.sorted_dues) ↔ b ∈ allBlocks s.«stacks») ∧
    (∀ b, b ∈ allBlocks s.«stacks» → b < p.due_dates.length) ∧
    (∀ sol : StackingSolution, sol.state = s →
      ((is_feasible sol = true ↔ ∀ st ∈ s.«stacks», st = []) ∧
       (is_feasible sol = true ↔ s.sorted_dues = []))) := by
  obtain ⟨hnd, hlk, hdues, hpair, hknd⟩ := StateInv_reach p s hw hr
  refine ⟨hnd, hlk, hdues, ?_, ?_⟩
  · intro b hb
    obtain ⟨d, hd⟩ := (hdues b).mpr hb
    exact (List.get?_eq_some.mp (hpair b d hd)).1
  · intro sol hsol
    have hfe : is_feasible sol = true ↔ ∀ st ∈ s.«stacks», st = [] := by
      unfold is_feasible StackingState.is_empty
      rw [hsol, List.all_eq_true]
      constructor
      · intro hall st hst
        have := hall st hst
        simpa [List.length_eq_zero] using this
      · intro hall st hst
        simp [hall st hst]
    refine ⟨hfe, hfe.trans ?_⟩
    constructor
    · intro hall
      have hflat : allBlocks s.«stacks» = [] := by
        unfold allBlocks
        apply List.eq_nil_iff_forall_not_mem.mpr
        intro b hb
        obtain ⟨st, hst, hbst⟩ := List.mem_flatten.mp hb
        rw [hall st hst] at hbst
        cases hbst
      cases hsd : s.sorted_dues with
      | nil => rfl
      | cons e rest =>
        exfalso
        have hmem : ∃ d, (e.1, d) ∈ s.sorted_dues :=
          ⟨e.2, by rw [hsd]; exact List.mem_cons_self e rest⟩
        have hbf := (hdues e.1).mp hmem
        rw [hflat] at hbf
        cases hbf
    · intro hsd st hst
      by_contra hne
      obtain ⟨b, hb⟩ := List.exists_mem_of_ne_nil st hne
      have hbf : b ∈ allBlocks s.«stacks» := List.mem_flatten.mpr ⟨st, hst, hb⟩
      obtain ⟨d, hd⟩ := (hdues b).mpr hbf
      rw [hsd] at hd
      cases hd

/-- C5 witness: the initial state of the scenario problem (a well-formed
instance) has pairwise-distinct in-stack blocks. -/
theorem c5_block_conservation_witness :
    (allBlocks (initState exP exP.initial_stacks 0).«stacks»).Nodup :=
  (c5_block_conservation exP (initState exP exP.initial_stacks 0) (by decide) Reach.init).1

end P2Spec
